import Mathlib

/-!
Shallow embedding of the join predicate subsystem of `pkg/sql/join_predicate.go`:
the three join-predicate variants (cross, ON, equality/USING), their row-level
operations `eval`, `prepareRow`, `encode`, and the construction functions
`makeUsingPredicate` / `makeEqualityPredicate` with their schema merging and
alias remapping.

Rows (`parser.DTuple`) are lists of datums; the distinguished `parser.DNull`
value is the `Datum.dnull` constructor. Go's in-place buffer mutation is
modelled by functions returning the updated buffer. Go `panic` is modelled by
a distinct `fatal` result constructor, kept separate from ordinary `error`
returns.
-/

set_option autoImplicit false

namespace JoinPred

/-- A datum: one typed value in a row, including the distinguished null marker
(`parser.DNull`).  The concrete non-null payloads stand in for the engine's
value universe; the join-predicate code only ever compares datums against the
null marker by identity and otherwise treats them opaquely. -/
inductive Datum where
  | dnull
  | dint (n : Int)
  | dstring (s : String)
  | dbool (b : Bool)
deriving DecidableEq, Repr, Inhabited

/-- `parser.DTuple`: a row is an ordered, fixed-width list of datums. -/
abbrev DTuple := List Datum

/-- The evaluation context threaded to comparison functions
(`parser.EvalContext`); opaque to the join-predicate code. -/
abbrev EvalContext := Unit

/-- The type of an equality comparison function memoized per USING pair:
`func(*parser.EvalContext, parser.Datum, parser.Datum) (parser.DBool, error)`. -/
abbrev CmpFn := EvalContext → Datum → Datum → Except String Bool

/-- Column types (`parser.Type`), reduced to the tags the embedding needs. -/
inductive Ty where
  | tInt
  | tString
  | tBool
deriving DecidableEq, Repr, Inhabited

/-- Render a type name for error messages. -/
def Ty.str : Ty → String
  | .tInt => "int"
  | .tString => "string"
  | .tBool => "bool"

/-- One column descriptor of a schema (`ResultColumn`): name, resolved type,
and the hidden flag (hidden columns are skipped by USING name resolution). -/
structure ResultColumn where
  name : String
  typ : Ty
  hidden : Bool
deriving DecidableEq, Repr, Inhabited

/-- `ResultColumns`: an ordered schema. -/
abbrev ResultColumns := List ResultColumn

/-- A possibly-invalid column index; `invalidColIdx` is the sentinel the Go
code stores in the `usedLeft`/`usedRight` arrays before a column is assigned
a position in the merged schema. -/
abbrev ColIdx := Option Nat

/-- The invalid-column-index sentinel. -/
def invalidColIdx : ColIdx := none

/-- `sourceAliases`: mapping from a table alias to the ordered list of column
positions that alias denotes, modelled as an association list (Go uses a map;
insertion overwrites any previous binding of the same key). -/
abbrev SourceAliases := List (String × List ColIdx)

/-- `dataSourceInfo`: an ordered schema plus its alias map. -/
structure DataSourceInfo where
  sourceColumns : ResultColumns
  sourceAliases : SourceAliases
deriving Inhabited

/-- Result of `encode(scratch, row, side) ([]byte, bool, error)`.  The byte
encoding produced by the external value encoder is modelled as `List Nat`.
`fatal` models a Go `panic` (contract violation), distinct from the ordinary
`err` return. -/
inductive EncodeResult where
  | ok (encoding : List Nat) (containsNull : Bool)
  | err (e : String)
  | fatal (msg : String)
deriving DecidableEq, Repr

/-- The external value encoder `sqlbase.EncodeDatum`: appends the byte
encoding of one datum to a growable buffer, or fails. -/
abbrev EncodeDatumFn := List Nat → Datum → Except String (List Nat)

/-- The side tag `leftSide` (Go `const leftSide = iota`). -/
def leftSide : Nat := 0

/-- The side tag `rightSide`. -/
def rightSide : Nat := 1

/-- Go's builtin `copy(dst, src)`: overwrite the prefix of `dst` with as much
of `src` as fits, leaving the remainder of `dst` unchanged. -/
def goCopy (dst src : List Datum) : List Datum :=
  src.take dst.length ++ dst.drop src.length

/-- `prepareRowConcat(result, leftRow, rightRow)`: fill `result` with the
plain concatenation of the two input rows —
`copy(result, leftRow); copy(result[len(leftRow):], rightRow)`. -/
def prepareRowConcat (result leftRow rightRow : DTuple) : DTuple :=
  let r1 := goCopy result leftRow
  r1.take leftRow.length ++ goCopy (r1.drop leftRow.length) rightRow

/-- `crossPredicate`: the predicate for CROSS JOIN; carries no state. -/
structure CrossPredicate where
deriving Inhabited

/-- `crossPredicate.eval`: always true, no error, no columns inspected. -/
def CrossPredicate.eval (_p : CrossPredicate) (_result _leftRow _rightRow : DTuple) :
    Except String Bool :=
  .ok true

/-- `crossPredicate.prepareRow`: plain concatenation. -/
def CrossPredicate.prepareRow (_p : CrossPredicate) (result leftRow rightRow : DTuple) : DTuple :=
  prepareRowConcat result leftRow rightRow

/-- `crossPredicate.encode`: `return nil, false, nil` — a no-op that ignores
all three arguments. -/
def CrossPredicate.encode (_p : CrossPredicate) (_b : List Nat) (_row : DTuple) (_side : Nat) :
    EncodeResult :=
  .ok [] false

/-- `onPredicate`: the predicate for an arbitrary boolean ON clause.  The
bound filter expression and its evaluation (`sqlbase.RunFilter` over the
analyzed expression, resolving indexed vars against `curRow`) live outside
this file; the filter is abstracted as a function of the current merged row. -/
structure OnPredicate where
  filter : DTuple → Except String Bool
  curRow : DTuple

/-- `onPredicate.eval`: fill `result` with the concatenation, make it the
current row, and run the filter against it.  Returns the updated predicate
state (Go mutates `p.curRow` in place) with the filter outcome. -/
def OnPredicate.eval (p : OnPredicate) (result leftRow rightRow : DTuple) :
    OnPredicate × Except String Bool :=
  let cur := prepareRowConcat result leftRow rightRow
  ({ p with curRow := cur }, p.filter cur)

/-- `onPredicate.prepareRow`: plain concatenation. -/
def OnPredicate.prepareRow (_p : OnPredicate) (result leftRow rightRow : DTuple) : DTuple :=
  prepareRowConcat result leftRow rightRow

/-- `onPredicate.encode`: `panic("ON predicate extraction unimplemented")`. -/
def OnPredicate.encode (_p : OnPredicate) (_b : List Nat) (_row : DTuple) (_side : Nat) :
    EncodeResult :=
  .fatal "ON predicate extraction unimplemented"

/-- `equalityPredicate`: the predicate for USING / natural equi-joins. -/
structure EqualityPredicate where
  leftColNames : List String
  rightColNames : List String
  usingCmp : List CmpFn
  evalCtx : EvalContext
  leftUsingIndices : List Nat
  rightUsingIndices : List Nat
  leftRestIndices : List Nat
  rightRestIndices : List Nat

/-- Default comparison function used only as the `getD` fallback when
indexing `usingCmp` out of range (never reached under the construction
invariant that all per-pair lists have equal length). -/
def defaultCmp : CmpFn := fun _ _ _ => .ok true

/-- The loop body of `equalityPredicate.eval` over the per-pair data
`((leftUsingIndices[i], rightUsingIndices[i]), usingCmp[i])`: stop with
`false` on the first null on either side, propagate the first comparison
error, stop with `false` on the first non-true comparison. -/
def evalLoop (ctx : EvalContext) (leftRow rightRow : DTuple) :
    List ((Nat × Nat) × CmpFn) → Except String Bool
  | [] => .ok true
  | ((li, ri), cmp) :: rest =>
    let leftVal := leftRow.getD li Datum.dnull
    let rightVal := rightRow.getD ri Datum.dnull
    if leftVal = Datum.dnull ∨ rightVal = Datum.dnull then
      .ok false
    else
      match cmp ctx leftVal rightVal with
      | .error e => .error e
      | .ok res => if res ≠ true then .ok false else evalLoop ctx leftRow rightRow rest

/-- The per-pair data `equalityPredicate.eval` iterates over; the Go loop
runs `for i := range p.leftColNames`, hence the `take`. -/
def EqualityPredicate.evalPairs (p : EqualityPredicate) : List ((Nat × Nat) × CmpFn) :=
  ((p.leftUsingIndices.zip p.rightUsingIndices).zip p.usingCmp).take p.leftColNames.length

/-- `equalityPredicate.eval(_, leftRow, rightRow)`: true iff every USING pair
is non-null on both sides and compares equal; the result buffer argument is
ignored (`_` in the Go signature). -/
def EqualityPredicate.eval (p : EqualityPredicate) (_result leftRow rightRow : DTuple) :
    Except String Bool :=
  evalLoop p.evalCtx leftRow rightRow p.evalPairs

/-- First loop of `equalityPredicate.prepareRow`: write the COALESCE of each
USING pair (left value unless it is null, else right value) at successive
positions `d`; `k` is the pair counter indexing `rightUsingIndices`. -/
def prepUsingLoop (rightUsingIndices : List Nat) (leftRow rightRow : DTuple) :
    List Nat → Nat → Nat → DTuple → DTuple × Nat
  | [], _, d, res => (res, d)
  | j :: js, k, d, res =>
    let v :=
      if leftRow.getD j Datum.dnull ≠ Datum.dnull then leftRow.getD j Datum.dnull
      else rightRow.getD (rightUsingIndices.getD k 0) Datum.dnull
    prepUsingLoop rightUsingIndices leftRow rightRow js (k + 1) (d + 1) (res.set d v)

/-- Second and third loops of `equalityPredicate.prepareRow`: copy the row's
values at the rest indices to successive positions `d`. -/
def prepRestLoop (row : DTuple) : List Nat → Nat → DTuple → DTuple × Nat
  | [], d, res => (res, d)
  | j :: js, d, res => prepRestLoop row js (d + 1) (res.set d (row.getD j Datum.dnull))

/-- `equalityPredicate.prepareRow(result, leftRow, rightRow)`: coalesced
USING values first, then the left row's non-USING values, then the right
row's non-USING values. -/
def EqualityPredicate.prepareRow (p : EqualityPredicate) (result leftRow rightRow : DTuple) :
    DTuple :=
  let s1 := prepUsingLoop p.rightUsingIndices leftRow rightRow p.leftUsingIndices 0 0 result
  let s2 := prepRestLoop leftRow p.leftRestIndices s1.2 s1.1
  (prepRestLoop rightRow p.rightRestIndices s2.2 s2.1).1

/-- The loop of `equalityPredicate.encode`: flag `containsNull` on any null
value, append each value's byte encoding, propagate the first encoder error
(returning it with no encoding and `containsNull = false`, as the Go code
returns `nil, false, err`). -/
def encodeLoop (encodeDatum : EncodeDatumFn) (row : DTuple) :
    List Nat → List Nat → Bool → EncodeResult
  | [], b, containsNull => .ok b containsNull
  | colIdx :: rest, b, containsNull =>
    let containsNull' :=
      if row.getD colIdx Datum.dnull = Datum.dnull then true else containsNull
    match encodeDatum b (row.getD colIdx Datum.dnull) with
    | .error e => .err e
    | .ok b' => encodeLoop encodeDatum row rest b' containsNull'

/-- `equalityPredicate.encode(b, row, side)`: pick the side's USING indices
(`rightSide` checked first, then `leftSide`, any other tag panics), then run
the encoding loop.  The external `sqlbase.EncodeDatum` is passed explicitly. -/
def EqualityPredicate.encode (encodeDatum : EncodeDatumFn) (p : EqualityPredicate)
    (b : List Nat) (row : DTuple) (side : Nat) : EncodeResult :=
  if side = rightSide then encodeLoop encodeDatum row p.rightUsingIndices b false
  else if side = leftSide then encodeLoop encodeDatum row p.leftUsingIndices b false
  else .fatal "invalid side provided, only leftSide or rightSide applicable"

/-- Modelled from the spec: the name-normalization function for
case/identifier folding (`parser.ReNormalizeName` / `Name.Normalize`, not part
of this source file), modelled as lower-casing. -/
def reNormalizeName (s : String) : String := ⟨s.data.map Char.toLower⟩

/-- The search loop of `pickUsingColumn`: scan all columns, skip hidden ones,
remember the index of the *last* non-hidden column whose normalized name
matches. -/
def pickLoop (colName : String) : ResultColumns → Nat → ColIdx → ColIdx
  | [], _, idx => idx
  | col :: rest, j, idx =>
    if col.hidden then pickLoop colName rest (j + 1) idx
    else if reNormalizeName col.name = colName then pickLoop colName rest (j + 1) (some j)
    else pickLoop colName rest (j + 1) idx

/-- `pickUsingColumn(cols, colName, context)`: resolve a normalized USING
column name to its position and type, or report an error naming the side. -/
def pickUsingColumn (cols : ResultColumns) (colName : String) (context : String) :
    Except String (Nat × Ty) :=
  match pickLoop colName cols 0 invalidColIdx with
  | none =>
    .error ("column \"" ++ colName ++
      "\" specified in USING clause does not exist in " ++ context ++ " table")
  | some idx => .ok (idx, (cols.getD idx default).typ)

/-- The duplicate scan of `makeUsingPredicate`: return the first normalized
name already seen, if any (`seenNames` accumulates the names seen so far). -/
def findDuplicate : List String → List String → Option String
  | [], _ => none
  | n :: rest, seenNames =>
    let colName := reNormalizeName n
    if colName ∈ seenNames then some colName else findDuplicate rest (colName :: seenNames)

/-- The accumulated state of the per-pair loop of `makeEqualityPredicate`. -/
structure BuildState where
  usedLeft : List ColIdx
  usedRight : List ColIdx
  columns : ResultColumns
  cmpOps : List CmpFn
  leftUsingIndices : List Nat
  rightUsingIndices : List Nat

/-- The per-pair loop of `makeEqualityPredicate` (`for i := range
leftColNames`): resolve both names, mark both positions used with the pair
index `i`, record the positions, memoize the equality comparison function
resolved from the two types (`parser.FindEqualComparisonFunction`, passed
explicitly as `findEq`), and append the left side's descriptor to the merged
columns. -/
def buildPairs (findEq : Ty → Ty → Option CmpFn) (leftCols rightCols : ResultColumns) :
    List (String × String) → Nat → BuildState → Except String BuildState
  | [], _, st => .ok st
  | (lnRaw, rnRaw) :: rest, i, st =>
    let leftColName := reNormalizeName lnRaw
    let rightColName := reNormalizeName rnRaw
    match pickUsingColumn leftCols leftColName "left" with
    | .error e => .error e
    | .ok (leftIdx, leftType) =>
      let st1 := { st with usedLeft := st.usedLeft.set leftIdx (some i) }
      match pickUsingColumn rightCols rightColName "right" with
      | .error e => .error e
      | .ok (rightIdx, rightType) =>
        let st2 := { st1 with
          usedRight := st1.usedRight.set rightIdx (some i)
          leftUsingIndices := st1.leftUsingIndices ++ [leftIdx]
          rightUsingIndices := st1.rightUsingIndices ++ [rightIdx] }
        match findEq leftType rightType with
        | none =>
          .error ("JOIN/USING types " ++ leftType.str ++ " for left column " ++ leftColName ++
            " and " ++ rightType.str ++ " for right column " ++ rightColName ++
            " cannot be matched")
        | some fn =>
          buildPairs findEq leftCols rightCols rest (i + 1)
            { st2 with
              cmpOps := st2.cmpOps ++ [fn]
              columns := st2.columns ++ [leftCols.getD leftIdx default] }

/-- The rest-column loop of `makeEqualityPredicate` (`for i := range
sourceColumns`): every position still marked `invalidColIdx` is appended to
the rest indices, assigned the next merged position, and its descriptor
appended to the merged columns.  Returns (rest indices, updated used array,
updated merged columns). -/
def restLoop (cols : ResultColumns) :
    List Nat → List ColIdx → ResultColumns → List Nat × List ColIdx × ResultColumns
  | [], used, columns => ([], used, columns)
  | i :: is, used, columns =>
    if used.getD i invalidColIdx = invalidColIdx then
      let out := restLoop cols is (used.set i (some columns.length))
        (columns ++ [cols.getD i default])
      (i :: out.1, out.2)
    else
      restLoop cols is used columns

/-- Remap one alias's column range through a side's final used-array:
`newRange[i] = used[colRange[i]]`.  (A sentinel in the input range — which a
well-formed alias map never contains — stays a sentinel.) -/
def remapRange (used : List ColIdx) (colRange : List ColIdx) : List ColIdx :=
  colRange.map fun c =>
    match c with
    | some colIdx => used.getD colIdx invalidColIdx
    | none => invalidColIdx

/-- Go map insertion `aliases[alias] = newRange`: overwrite any previous
binding of the same key. -/
def aliasInsert (m : SourceAliases) (a : String) (v : List ColIdx) : SourceAliases :=
  m.filter (fun p => p.1 ≠ a) ++ [(a, v)]

/-- Go map lookup in an alias map. -/
def aliasLookup (m : SourceAliases) (a : String) : Option (List ColIdx) :=
  match m.find? (fun p => p.1 = a) with
  | some p => some p.2
  | none => none

/-- The alias-merging step of `makeEqualityPredicate`: remap every alias of
the left side through `usedLeft`, then every alias of the right side through
`usedRight`; a right-side alias overwrites a left-side alias of the same
name. -/
def mergeAliases (usedLeft usedRight : List ColIdx) (la ra : SourceAliases) : SourceAliases :=
  let m1 := la.foldl (fun m p => aliasInsert m p.1 (remapRange usedLeft p.2)) []
  ra.foldl (fun m p => aliasInsert m p.1 (remapRange usedRight p.2)) m1

/-- Everything `makeEqualityPredicate` computes, including the final
`usedLeft`/`usedRight` position maps (internal to the Go function), exposed
for stating invariants about them. -/
structure EqResult where
  pred : EqualityPredicate
  info : DataSourceInfo
  usedLeftFinal : List ColIdx
  usedRightFinal : List ColIdx

/-- Outcome of construction with all intermediates: success, ordinary error
return, or `fatal` for a Go `panic`. -/
inductive ConstrFull where
  | ok (r : EqResult)
  | err (e : String)
  | fatal (msg : String)

/-- `makeEqualityPredicate(left, right, leftColNames, rightColNames)` with
all intermediates exposed.  Panics (fatal) on mismatched name-list lengths;
builds the per-pair data, the rest columns of both sides, and the merged
alias map. -/
def makeEqualityPredicateFull (findEq : Ty → Ty → Option CmpFn)
    (left right : DataSourceInfo) (leftColNames rightColNames : List String) : ConstrFull :=
  if leftColNames.length ≠ rightColNames.length then
    .fatal "left columns' length doesn't match right columns' length in EqualityPredicate"
  else
    let st0 : BuildState := {
      usedLeft := List.replicate left.sourceColumns.length invalidColIdx
      usedRight := List.replicate right.sourceColumns.length invalidColIdx
      columns := []
      cmpOps := []
      leftUsingIndices := []
      rightUsingIndices := [] }
    match buildPairs findEq left.sourceColumns right.sourceColumns
        (leftColNames.zip rightColNames) 0 st0 with
    | .error e => .err e
    | .ok st =>
      let outL := restLoop left.sourceColumns (List.range left.sourceColumns.length)
        st.usedLeft st.columns
      let outR := restLoop right.sourceColumns (List.range right.sourceColumns.length)
        st.usedRight outL.2.2
      let aliases := mergeAliases outL.2.1 outR.2.1 left.sourceAliases right.sourceAliases
      .ok {
        pred := {
          evalCtx := ()
          leftColNames := leftColNames
          rightColNames := rightColNames
          usingCmp := st.cmpOps
          leftUsingIndices := st.leftUsingIndices
          rightUsingIndices := st.rightUsingIndices
          leftRestIndices := outL.1
          rightRestIndices := outR.1 }
        info := { sourceColumns := outR.2.2, sourceAliases := aliases }
        usedLeftFinal := outL.2.1
        usedRightFinal := outR.2.1 }

/-- Outcome of construction as the Go function returns it:
`(joinPredicate, *dataSourceInfo, error)`, with `fatal` for a panic. -/
inductive ConstrResult where
  | ok (pred : EqualityPredicate) (info : DataSourceInfo)
  | err (e : String)
  | fatal (msg : String)

/-- `true` iff a predicate/info pair was returned. -/
def ConstrResult.isOk : ConstrResult → Bool
  | .ok .. => true
  | _ => false

/-- `true` iff an ordinary error was returned. -/
def ConstrResult.isErr : ConstrResult → Bool
  | .err _ => true
  | _ => false

/-- `true` iff construction panicked. -/
def ConstrResult.isFatal : ConstrResult → Bool
  | .fatal _ => true
  | _ => false

/-- `makeEqualityPredicate` as the Go function returns it. -/
def makeEqualityPredicate (findEq : Ty → Ty → Option CmpFn)
    (left right : DataSourceInfo) (leftColNames rightColNames : List String) : ConstrResult :=
  match makeEqualityPredicateFull findEq left right leftColNames rightColNames with
  | .ok r => .ok r.pred r.info
  | .err e => .err e
  | .fatal msg => .fatal msg

/-- `makeUsingPredicate(left, right, colNames)`: reject a name appearing more
than once in the USING clause, then build the equality predicate with the
same name list on both sides. -/
def makeUsingPredicate (findEq : Ty → Ty → Option CmpFn)
    (left right : DataSourceInfo) (colNames : List String) : ConstrResult :=
  match findDuplicate colNames [] with
  | some colName =>
    .err ("column \"" ++ colName ++ "\" appears more than once in USING clause")
  | none => makeEqualityPredicate findEq left right colNames colNames

/-! ### Derived notions used to state the verified properties -/

/-- Write the values `vals` into `res` at consecutive positions starting at
`d` — the common shape of the three `prepareRow` loops. -/
def writeAt : DTuple → Nat → DTuple → DTuple
  | res, _, [] => res
  | res, d, v :: vs => writeAt (res.set d v) (d + 1) vs

/-- Chain the value encoder over a list of datums, threading the buffer and
propagating the first failure — the byte-appending part of `encode`. -/
def encodeChain (encodeDatum : EncodeDatumFn) : List Nat → List Datum → Except String (List Nat)
  | b, [] => .ok b
  | b, v :: vs =>
    match encodeDatum b v with
    | .error e => .error e
    | .ok b' => encodeChain encodeDatum b' vs

/-- The left row's value at USING pair `i`'s resolved left position. -/
def EqualityPredicate.leftValAt (p : EqualityPredicate) (leftRow : DTuple) (i : Nat) : Datum :=
  leftRow.getD (p.leftUsingIndices.getD i 0) Datum.dnull

/-- The right row's value at USING pair `i`'s resolved right position. -/
def EqualityPredicate.rightValAt (p : EqualityPredicate) (rightRow : DTuple) (i : Nat) : Datum :=
  rightRow.getD (p.rightUsingIndices.getD i 0) Datum.dnull

/-- USING pair `i`'s memoized comparison function. -/
def EqualityPredicate.cmpAt (p : EqualityPredicate) (i : Nat) : CmpFn :=
  p.usingCmp.getD i defaultCmp

instance {ε α : Type} [DecidableEq ε] [DecidableEq α] : DecidableEq (Except ε α) := fun x y =>
  match x, y with
  | .ok a, .ok b =>
    if h : a = b then .isTrue (by rw [h]) else .isFalse (fun hh => h (Except.ok.injEq a b ▸ hh))
  | .error a, .error b =>
    if h : a = b then .isTrue (by rw [h]) else .isFalse (fun hh => h (Except.error.injEq a b ▸ hh))
  | .ok _, .error _ => .isFalse (fun hh => Except.noConfusion hh)
  | .error _, .ok _ => .isFalse (fun hh => Except.noConfusion hh)

/-- USING pair `i` matches: both sides non-null and the pair's comparison
function returns true. -/
def EqualityPredicate.pairMatches (p : EqualityPredicate) (leftRow rightRow : DTuple)
    (i : Nat) : Prop :=
  p.leftValAt leftRow i ≠ Datum.dnull ∧ p.rightValAt rightRow i ≠ Datum.dnull ∧
    p.cmpAt i p.evalCtx (p.leftValAt leftRow i) (p.rightValAt rightRow i) = .ok true

instance (p : EqualityPredicate) (leftRow rightRow : DTuple) (i : Nat) :
    Decidable (p.pairMatches leftRow rightRow i) := by
  unfold EqualityPredicate.pairMatches
  infer_instance

/-- `true` iff an encode call panicked. -/
def EncodeResult.isFatal : EncodeResult → Bool
  | .fatal _ => true
  | _ => false

/-- Well-formedness of an alias map against a schema of `len` columns: every
range entry is a valid (non-sentinel) position below `len`. -/
def aliasWF (len : Nat) (aliases : SourceAliases) : Prop :=
  ∀ p ∈ aliases, ∀ c ∈ p.2, c.getD 0 < len ∧ c ≠ invalidColIdx

instance (len : Nat) (aliases : SourceAliases) : Decidable (aliasWF len aliases) := by
  unfold aliasWF
  infer_instance

/-- The value of the last binding of key `a` in an association list — what a
Go-map insertion sequence leaves bound at `a`. -/
def lastVal (ra : SourceAliases) (a : String) : Option (List ColIdx) :=
  ra.foldl (fun acc p => if p.1 = a then some p.2 else acc) none

/-! ### Sample data used by the witnesses -/

/-- A sample equality-function resolver: equal types compare by datum
equality, distinct types have no equality function. -/
def sampleFindEq : Ty → Ty → Option CmpFn := fun t1 t2 =>
  if t1 = t2 then some (fun _ d1 d2 => .ok (decide (d1 = d2))) else none

/-- Sample left source: columns `(a, b)`, alias `t` over both. -/
def sampleLeftInfo : DataSourceInfo := {
  sourceColumns := [⟨"a", .tInt, false⟩, ⟨"b", .tInt, false⟩]
  sourceAliases := [("t", [some 0, some 1])] }

/-- Sample right source: columns `(a, c)`, aliases `t` and `r`. -/
def sampleRightInfo : DataSourceInfo := {
  sourceColumns := [⟨"a", .tInt, false⟩, ⟨"c", .tInt, false⟩]
  sourceAliases := [("t", [some 0, some 1]), ("r", [some 1])] }

/-- A hand-written equality predicate for `USING(a)` over the sample schemas. -/
def samplePred : EqualityPredicate := {
  leftColNames := ["a"]
  rightColNames := ["a"]
  usingCmp := [fun _ d1 d2 => .ok (decide (d1 = d2))]
  evalCtx := ()
  leftUsingIndices := [0]
  rightUsingIndices := [0]
  leftRestIndices := [1]
  rightRestIndices := [1] }

/-- A sample value encoder: one byte per datum, failing on booleans. -/
def sampleEncodeDatum : EncodeDatumFn := fun b d =>
  match d with
  | .dnull => .ok (b ++ [0])
  | .dint n => .ok (b ++ [n.natAbs + 1])
  | .dstring s => .ok (b ++ [s.length + 2])
  | .dbool _ => .error "unsupported datum type"

/-- Sample right source whose `a` column is a string (no equality function
against the integer `a` on the left under `sampleFindEq`). -/
def sampleStrRightInfo : DataSourceInfo := {
  sourceColumns := [⟨"a", .tString, false⟩, ⟨"c", .tInt, false⟩]
  sourceAliases := [] }

/-- The full construction result for `USING(a)` over the sample schemas. -/
def sampleEqResult : EqResult :=
  match makeEqualityPredicateFull sampleFindEq sampleLeftInfo sampleRightInfo ["a"] ["a"] with
  | .ok r => r
  | _ => {
      pred := samplePred
      info := { sourceColumns := [], sourceAliases := [] }
      usedLeftFinal := []
      usedRightFinal := [] }

/-- The predicate returned by the sample construction. -/
def sampleOkPred : EqualityPredicate :=
  match makeEqualityPredicate sampleFindEq sampleLeftInfo sampleRightInfo ["a"] ["a"] with
  | .ok pred _ => pred
  | _ => samplePred

/-- The merged source info returned by the sample construction. -/
def sampleOkInfo : DataSourceInfo :=
  match makeEqualityPredicate sampleFindEq sampleLeftInfo sampleRightInfo ["a"] ["a"] with
  | .ok _ info => info
  | _ => { sourceColumns := [], sourceAliases := [] }

/-- One pair's data passes `eval`'s test: both values non-null and the
comparison function returns true. -/
def pairGood (ctx : EvalContext) (leftRow rightRow : DTuple) (q : (Nat × Nat) × CmpFn) : Prop :=
  leftRow.getD q.1.1 Datum.dnull ≠ Datum.dnull ∧
    rightRow.getD q.1.2 Datum.dnull ≠ Datum.dnull ∧
    q.2 ctx (leftRow.getD q.1.1 Datum.dnull) (rightRow.getD q.1.2 Datum.dnull) = .ok true

/-! ## Verified properties -/

/-- Filling a buffer of exactly the combined width by the two `copy` calls of
`prepareRowConcat` yields the plain concatenation of the rows. -/
theorem prepareRowConcat_eq_append (result leftRow rightRow : DTuple)
    (h : result.length = leftRow.length + rightRow.length) :
    prepareRowConcat result leftRow rightRow = leftRow ++ rightRow := by
  have h1 : leftRow.take result.length = leftRow := List.take_of_length_le (by omega)
  simp only [prepareRowConcat, goCopy]
  rw [h1, List.take_left, List.drop_left]
  have h3 : (result.drop leftRow.length).length = rightRow.length := by
    simp [List.length_drop, h]
  rw [h3, List.take_length, List.drop_drop]
  have h4 : result.drop (leftRow.length + rightRow.length) = [] := by
    apply List.drop_eq_nil_of_le
    omega
  rw [h4, List.append_nil]

/-- C8: for every row pair, the Cross variant's `eval` returns true with no
error, and `prepareRow` for both the Cross and On variants writes exactly the
left row's values followed by the right row's values into a result buffer of
width `len(left) + len(right)`. -/
theorem cross_eval_true_and_concat_prepareRow :
    (∀ (p : CrossPredicate) (result leftRow rightRow : DTuple),
      p.eval result leftRow rightRow = .ok true) ∧
    (∀ (p : CrossPredicate) (result leftRow rightRow : DTuple),
      result.length = leftRow.length + rightRow.length →
      p.prepareRow result leftRow rightRow = leftRow ++ rightRow) ∧
    (∀ (p : OnPredicate) (result leftRow rightRow : DTuple),
      result.length = leftRow.length + rightRow.length →
      p.prepareRow result leftRow rightRow = leftRow ++ rightRow) :=
  ⟨fun _ _ _ _ => rfl,
   fun _ result leftRow rightRow h => prepareRowConcat_eq_append result leftRow rightRow h,
   fun _ result leftRow rightRow h => prepareRowConcat_eq_append result leftRow rightRow h⟩

/-- Witness for C8 at concrete rows. -/
theorem cross_eval_true_and_concat_prepareRow_witness :
    CrossPredicate.eval ⟨⟩ [Datum.dnull] [Datum.dint 1] [Datum.dint 2] = .ok true ∧
    CrossPredicate.prepareRow ⟨⟩ [Datum.dnull, Datum.dnull, Datum.dnull]
      [Datum.dint 1] [Datum.dint 2, Datum.dint 3] =
      [Datum.dint 1, Datum.dint 2, Datum.dint 3] ∧
    OnPredicate.prepareRow ⟨fun _ => .ok true, []⟩ [Datum.dnull, Datum.dnull]
      [Datum.dint 4] [Datum.dint 5] = [Datum.dint 4, Datum.dint 5] :=
  ⟨cross_eval_true_and_concat_prepareRow.1 ⟨⟩ _ _ _,
   cross_eval_true_and_concat_prepareRow.2.1 ⟨⟩ _ _ _ (by decide),
   cross_eval_true_and_concat_prepareRow.2.2 _ _ _ _ (by decide)⟩

/-- C9: the Cross variant's `encode` is a true no-op for every buffer, row
and side argument: empty key, `containsNull = false`, no error. -/
theorem crossPredicate_encode_noop :
    ∀ (p : CrossPredicate) (b : List Nat) (row : DTuple) (side : Nat),
      p.encode b row side = .ok [] false :=
  fun _ _ _ _ => rfl

/-- C10: the Equality variant's `eval` ignores its result-buffer argument
entirely: evaluating with any two result buffers gives the same outcome, so
the buffer is never written and only `prepareRow` fills it. -/
theorem equality_eval_ignores_result :
    ∀ (p : EqualityPredicate) (result result' leftRow rightRow : DTuple),
      p.eval result leftRow rightRow = p.eval result' leftRow rightRow :=
  fun _ _ _ _ _ => rfl

/-- Counterexample to C6 as stated: the Cross variant's `encode` is not a
contract violation — even with an unrecognized side tag it returns the no-op
result, not a fatal/assertion outcome. -/
theorem cross_encode_not_fatal_cex :
    CrossPredicate.encode ⟨⟩ [] [] 99 = EncodeResult.ok [] false ∧
    (CrossPredicate.encode ⟨⟩ [] [] 99).isFatal = false :=
  ⟨rfl, rfl⟩

/-- C6 (amended): calling `encode` on the On variant, and calling the
Equality variant's `encode` with a side tag other than the two recognized
ones, are contract violations signalled by the distinct fatal (panic) kind,
never an ordinary error return; the Cross variant's `encode` is a no-op. -/
theorem encode_contract_violations :
    (∀ (p : OnPredicate) (b : List Nat) (row : DTuple) (side : Nat),
      p.encode b row side = .fatal "ON predicate extraction unimplemented") ∧
    (∀ (encodeDatum : EncodeDatumFn) (p : EqualityPredicate) (b : List Nat) (row : DTuple)
        (side : Nat), side ≠ leftSide → side ≠ rightSide →
      EqualityPredicate.encode encodeDatum p b row side =
        .fatal "invalid side provided, only leftSide or rightSide applicable") := by
  refine ⟨fun _ _ _ _ => rfl, fun encodeDatum p b row side hL hR => ?_⟩
  simp [EqualityPredicate.encode, hL, hR]

/-- Witness for C6 (amended) at a concrete unrecognized side tag. -/
theorem encode_contract_violations_witness :
    OnPredicate.encode ⟨fun _ => .ok true, []⟩ [] [] leftSide =
      .fatal "ON predicate extraction unimplemented" ∧
    EqualityPredicate.encode sampleEncodeDatum samplePred [] [] 5 =
      .fatal "invalid side provided, only leftSide or rightSide applicable" :=
  ⟨encode_contract_violations.1 _ _ _ _,
   encode_contract_violations.2 sampleEncodeDatum samplePred [] [] 5 (by decide) (by decide)⟩

/-- Writing a concatenation is writing the two parts in sequence. -/
theorem writeAt_append (xs : DTuple) :
    ∀ (res : DTuple) (d : Nat) (ys : DTuple),
      writeAt res d (xs ++ ys) = writeAt (writeAt res d xs) (d + xs.length) ys := by
  induction xs with
  | nil => intro res d ys; simp [writeAt]
  | cons v vs ih =>
    intro res d ys
    simp only [List.cons_append, writeAt, List.length_cons, List.append_eq]
    rw [ih]
    congr 1
    omega

/-- Writing `vals` at position `d` into a buffer wide enough to hold them
replaces exactly the slice `[d, d + len vals)`. -/
theorem writeAt_eq (vals : DTuple) :
    ∀ (res : DTuple) (d : Nat), d + vals.length ≤ res.length →
      writeAt res d vals = res.take d ++ vals ++ res.drop (d + vals.length) := by
  induction vals with
  | nil =>
    intro res d h
    simp [writeAt]
  | cons v vs ih =>
    intro res d h
    have hd : d < res.length := by
      simp only [List.length_cons] at h
      omega
    have hlen : (res.take d).length = d := by
      rw [List.length_take]
      omega
    simp only [writeAt]
    rw [ih (res.set d v) (d + 1) (by simp only [List.length_set, List.length_cons] at h ⊢; omega)]
    rw [List.set_eq_take_cons_drop v hd]
    have t1 : ((res.take d ++ v :: res.drop (d + 1)).take (d + 1)) = res.take d ++ [v] := by
      conv_lhs => rw [show d + 1 = (res.take d).length + 1 by rw [hlen]]
      rw [List.take_append]
      simp
    have t2 : (res.take d ++ v :: res.drop (d + 1)).drop (d + 1 + vs.length) =
        res.drop (d + (vs.length + 1)) := by
      conv_lhs =>
        rw [show d + 1 + vs.length = (res.take d).length + (1 + vs.length) by rw [hlen]; omega]
      rw [List.drop_append]
      rw [show 1 + vs.length = vs.length + 1 from Nat.add_comm _ _]
      rw [List.drop_succ_cons, List.drop_drop]
      congr 1
      omega
    rw [t1, t2]
    simp only [List.length_cons, List.append_assoc, List.singleton_append]

/-- The rest-value loop of `prepareRow` writes the row's values at the rest
indices, in order, at consecutive positions. -/
theorem prepRestLoop_eq (row : DTuple) :
    ∀ (js : List Nat) (d : Nat) (res : DTuple),
      prepRestLoop row js d res =
        (writeAt res d (js.map fun j => row.getD j Datum.dnull), d + js.length) := by
  intro js
  induction js with
  | nil => intro d res; simp [prepRestLoop, writeAt]
  | cons j js ih =>
    intro d res
    simp only [prepRestLoop, List.map_cons, writeAt, ih, List.length_cons, Prod.mk.injEq]
    exact ⟨by trivial, by omega⟩

/-- The USING-value loop of `prepareRow` writes the coalesced values of the
pairs `(leftUsingIndices[k], rightUsingIndices[k])`, in pair order, at
consecutive positions. -/
theorem prepUsingLoop_eq (rIdx : List Nat) (leftRow rightRow : DTuple) :
    ∀ (js : List Nat) (k d : Nat) (res : DTuple), k + js.length ≤ rIdx.length →
      prepUsingLoop rIdx leftRow rightRow js k d res =
        (writeAt res d ((js.zip (rIdx.drop k)).map fun jk =>
            if leftRow.getD jk.1 Datum.dnull ≠ Datum.dnull then leftRow.getD jk.1 Datum.dnull
            else rightRow.getD jk.2 Datum.dnull),
          d + js.length) := by
  intro js
  induction js with
  | nil => intro k d res _; simp [prepUsingLoop, writeAt]
  | cons j js ih =>
    intro k d res h
    have hk : k < rIdx.length := by
      simp only [List.length_cons] at h
      omega
    have hget : rIdx.getD k 0 = rIdx[k] := by
      simp [List.getD_eq_getElem?_getD, List.getElem?_eq_getElem hk]
    rw [List.drop_eq_getElem_cons hk]
    simp only [prepUsingLoop, List.zip_cons_cons, List.map_cons, writeAt, List.length_cons, hget]
    rw [ih (k + 1) (d + 1) _ (by simp only [List.length_cons] at h; omega)]
    simp only [Prod.mk.injEq]
    exact ⟨by trivial, by omega⟩

/-- C2: for the Equality variant, `prepareRow` fills a result buffer of the
merged width with the coalesced USING values in pair order (left value unless
null, else right value), then the left row's non-USING values in original
order, then the right row's non-USING values in original order. -/
theorem equality_prepareRow_spec (p : EqualityPredicate) (result leftRow rightRow : DTuple)
    (hlen : p.leftUsingIndices.length = p.rightUsingIndices.length)
    (hres : result.length =
      p.leftUsingIndices.length + p.leftRestIndices.length + p.rightRestIndices.length) :
    p.prepareRow result leftRow rightRow =
      (p.leftUsingIndices.zip p.rightUsingIndices).map (fun jk =>
        if leftRow.getD jk.1 Datum.dnull ≠ Datum.dnull then leftRow.getD jk.1 Datum.dnull
        else rightRow.getD jk.2 Datum.dnull)
      ++ p.leftRestIndices.map (fun j => leftRow.getD j Datum.dnull)
      ++ p.rightRestIndices.map (fun j => rightRow.getD j Datum.dnull) := by
  simp only [EqualityPredicate.prepareRow]
  rw [prepUsingLoop_eq p.rightUsingIndices leftRow rightRow p.leftUsingIndices 0 0 result
    (by omega)]
  rw [List.drop_zero]
  rw [prepRestLoop_eq, prepRestLoop_eq]
  dsimp only
  set A := (p.leftUsingIndices.zip p.rightUsingIndices).map (fun jk =>
    if leftRow.getD jk.1 Datum.dnull ≠ Datum.dnull then leftRow.getD jk.1 Datum.dnull
    else rightRow.getD jk.2 Datum.dnull) with hAdef
  set B := p.leftRestIndices.map (fun j => leftRow.getD j Datum.dnull) with hBdef
  set C := p.rightRestIndices.map (fun j => rightRow.getD j Datum.dnull) with hCdef
  have hA : A.length = p.leftUsingIndices.length := by
    rw [hAdef]; simp [List.length_zip, hlen]
  have hB : B.length = p.leftRestIndices.length := by rw [hBdef]; simp
  have hC : C.length = p.rightRestIndices.length := by rw [hCdef]; simp
  rw [← hA, ← hB, ← writeAt_append A result 0 B, Nat.add_assoc, ← List.length_append A B,
    ← writeAt_append (A ++ B) result 0 C]
  rw [writeAt_eq (A ++ B ++ C) result 0
    (by simp only [List.length_append, hA, hB, hC]; omega)]
  have hdropnil : result.drop (0 + (A ++ B ++ C).length) = [] := by
    apply List.drop_eq_nil_of_le
    simp only [List.length_append, hA, hB, hC]
    omega
  rw [hdropnil]
  simp

/-- Witness for C2: `USING(a)` with a null left `a`; the output coalesces to
the right value, then the left rest, then the right rest. -/
theorem equality_prepareRow_spec_witness :
    samplePred.prepareRow [Datum.dnull, Datum.dnull, Datum.dnull]
      [Datum.dnull, Datum.dint 10] [Datum.dint 7, Datum.dint 100] =
      [Datum.dint 7, Datum.dint 10, Datum.dint 100] :=
  equality_prepareRow_spec samplePred _ _ _ (by decide) (by decide)

/-- The encode loop is the encoder chain over the selected values, with the
null flag accumulated by disjunction. -/
theorem encodeLoop_eq (encodeDatum : EncodeDatumFn) (row : DTuple) :
    ∀ (cols : List Nat) (b : List Nat) (cn : Bool),
      encodeLoop encodeDatum row cols b cn =
        match encodeChain encodeDatum b (cols.map fun j => row.getD j Datum.dnull) with
        | .ok b' => .ok b' (cn || (cols.map fun j => row.getD j Datum.dnull).contains Datum.dnull)
        | .error e => .err e := by
  intro cols
  induction cols with
  | nil => intro b cn; simp [encodeLoop, encodeChain]
  | cons j cols ih =>
    intro b cn
    simp only [encodeLoop, List.map_cons, encodeChain]
    cases he : encodeDatum b (row.getD j Datum.dnull) with
    | error e => rfl
    | ok b' =>
      dsimp only
      rw [ih b']
      cases hc : encodeChain encodeDatum b' (cols.map fun j => row.getD j Datum.dnull) with
      | error e => rfl
      | ok b'' =>
        by_cases hv : row.getD j Datum.dnull = Datum.dnull
        · simp only [List.getD_eq_getElem?_getD] at hv
          simp [hv, List.contains_cons]
        · simp only [List.getD_eq_getElem?_getD] at hv
          have hv' : ¬(Datum.dnull = row[j]?.getD Datum.dnull) := fun hh => hv hh.symm
          simp [hv, hv', List.contains_cons]

/-- C4: for a recognized side tag, `encode` appends the byte encodings of the
side's USING-column values in pair order to the given buffer, reports
`containsNull` exactly when one of those values is the null marker, and
returns any value-encoder failure as an ordinary error. -/
theorem equality_encode_spec (encodeDatum : EncodeDatumFn) (p : EqualityPredicate)
    (b : List Nat) (row : DTuple) (side : Nat)
    (h : side = leftSide ∨ side = rightSide) :
    EqualityPredicate.encode encodeDatum p b row side =
      (let cols := if side = rightSide then p.rightUsingIndices else p.leftUsingIndices
       let vals := cols.map fun j => row.getD j Datum.dnull
       match encodeChain encodeDatum b vals with
       | .ok b' => .ok b' (vals.contains Datum.dnull)
       | .error e => .err e) := by
  rcases h with h | h
  · subst h
    have hlr : ¬(leftSide = rightSide) := by decide
    simp only [EqualityPredicate.encode, if_neg hlr, if_pos rfl]
    rw [encodeLoop_eq]
    simp
  · subst h
    simp only [EqualityPredicate.encode, if_pos rfl]
    rw [encodeLoop_eq]
    simp

/-- Witness for C4: `USING(a)` on the left side of row `(a=5, b=10)` encodes
exactly `a`'s value appended to the buffer, with no null observed. -/
theorem equality_encode_spec_witness :
    EqualityPredicate.encode sampleEncodeDatum samplePred [7] [Datum.dint 5, Datum.dint 10]
      leftSide = .ok [7, 6] false := by
  rw [equality_encode_spec sampleEncodeDatum samplePred [7] [Datum.dint 5, Datum.dint 10]
    leftSide (Or.inl rfl)]
  rfl

/-- Reading within bounds is a membership. -/
theorem getD_mem_of_lt {α : Type} (l : List α) (dflt : α) (i : Nat) (hi : i < l.length) :
    l.getD i dflt ∈ l := by
  rw [List.getD_eq_getElem?_getD, List.getElem?_eq_getElem hi, Option.getD_some]
  exact List.getElem_mem hi

/-- Every member is read from its position. -/
theorem mem_iff_exists_getD {α : Type} (l : List α) (dflt : α) (x : α) (hx : x ∈ l) :
    ∃ i, i < l.length ∧ l.getD i dflt = x := by
  obtain ⟨i, hi, hix⟩ := List.mem_iff_getElem.mp hx
  refine ⟨i, hi, ?_⟩
  rw [List.getD_eq_getElem?_getD, List.getElem?_eq_getElem hi, Option.getD_some]
  exact hix

/-- Quantifying over a list's members is quantifying over positions. -/
theorem forall_mem_iff_getD {α : Type} (l : List α) (dflt : α) (P : α → Prop) :
    (∀ x ∈ l, P x) ↔ ∀ i, i < l.length → P (l.getD i dflt) := by
  constructor
  · intro h i hi
    exact h _ (getD_mem_of_lt l dflt i hi)
  · intro h x hx
    obtain ⟨i, hi, hix⟩ := mem_iff_exists_getD l dflt x hx
    rw [← hix]
    exact h i hi

/-- Dropping to a position within bounds exposes that position's value. -/
theorem drop_eq_getD_cons {α : Type} (l : List α) (dflt : α) (i : Nat) (hi : i < l.length) :
    l.drop i = l.getD i dflt :: l.drop (i + 1) := by
  rw [List.drop_eq_getElem_cons hi]
  congr 1
  rw [List.getD_eq_getElem?_getD, List.getElem?_eq_getElem hi, Option.getD_some]

/-- Reading a prefix within its length reads the original list. -/
theorem getD_take {α : Type} (l : List α) (dflt : α) (i j : Nat) (hj : j < i) :
    (l.take i).getD j dflt = l.getD j dflt := by
  rw [List.getD_eq_getElem?_getD, List.getD_eq_getElem?_getD, List.getElem?_take_of_lt hj]

/-- `evalLoop` answers true exactly when every pair in the list is non-null
on both sides and compares equal. -/
theorem evalLoop_ok_true_iff (ctx : EvalContext) (l r : DTuple) :
    ∀ ps : List ((Nat × Nat) × CmpFn),
      evalLoop ctx l r ps = .ok true ↔ ∀ q ∈ ps, pairGood ctx l r q := by
  intro ps
  induction ps with
  | nil => simp [evalLoop]
  | cons hd ps ih =>
    obtain ⟨⟨li, ri⟩, cmp⟩ := hd
    simp only [evalLoop]
    by_cases hnull : l.getD li Datum.dnull = Datum.dnull ∨ r.getD ri Datum.dnull = Datum.dnull
    · rw [if_pos hnull]
      constructor
      · intro hcontra
        exact absurd hcontra (by decide)
      · intro hall
        have hg := hall _ (List.mem_cons_self _ _)
        simp only [pairGood] at hg
        rcases hg with ⟨h1, h2, _⟩
        rcases hnull with h | h
        · exact absurd h h1
        · exact absurd h h2
    · rw [if_neg hnull]
      push_neg at hnull
      obtain ⟨hl', hr'⟩ := hnull
      cases hc : cmp ctx (l.getD li Datum.dnull) (r.getD ri Datum.dnull) with
      | error e =>
        dsimp only
        constructor
        · intro hcontra
          exact Except.noConfusion hcontra
        · intro hall
          have hg := hall _ (List.mem_cons_self _ _)
          simp only [pairGood] at hg
          rcases hg with ⟨_, _, h3⟩
          rw [hc] at h3
          exact Except.noConfusion h3
      | ok res =>
        dsimp only
        by_cases hres : res = true
        · subst hres
          rw [if_neg (by simp)]
          rw [ih]
          constructor
          · intro htail q hq
            rcases List.mem_cons.mp hq with rfl | hq'
            · exact ⟨hl', hr', hc⟩
            · exact htail q hq'
          · intro hall q hq
            exact hall q (List.mem_cons_of_mem _ hq)
        · rw [if_pos hres]
          constructor
          · intro hcontra
            simp at hcontra
          · intro hall
            have hg := hall _ (List.mem_cons_self _ _)
            simp only [pairGood] at hg
            rcases hg with ⟨_, _, h3⟩
            rw [hc] at h3
            exact absurd (Except.ok.inj h3) hres

/-- `evalLoop` short-circuits to `ok false` (no error) at the first pair with
a null on either side, whatever comes after it. -/
theorem evalLoop_break_null (ctx : EvalContext) (l r : DTuple) :
    ∀ (ps1 : List ((Nat × Nat) × CmpFn)) (q : (Nat × Nat) × CmpFn)
      (ps2 : List ((Nat × Nat) × CmpFn)),
      (∀ x ∈ ps1, pairGood ctx l r x) →
      (l.getD q.1.1 Datum.dnull = Datum.dnull ∨ r.getD q.1.2 Datum.dnull = Datum.dnull) →
      evalLoop ctx l r (ps1 ++ q :: ps2) = .ok false := by
  intro ps1
  induction ps1 with
  | nil =>
    intro q ps2 _ hnull
    obtain ⟨⟨li, ri⟩, cmp⟩ := q
    dsimp only at hnull
    simp only [List.nil_append, evalLoop]
    rw [if_pos hnull]
  | cons x ps1 ih =>
    intro q ps2 hgood hnull
    obtain ⟨⟨li, ri⟩, cmp⟩ := x
    have hx := hgood _ (List.mem_cons_self _ _)
    simp only [pairGood] at hx
    obtain ⟨h1, h2, h3⟩ := hx
    simp only [List.cons_append, evalLoop]
    rw [if_neg (not_or.mpr ⟨h1, h2⟩), h3]
    dsimp only
    rw [if_neg (by simp)]
    exact ih q ps2 (fun y hy => hgood _ (List.mem_cons_of_mem _ hy)) hnull

/-- `evalLoop` stops at the first comparison error and propagates it,
whatever comes after it. -/
theorem evalLoop_break_error (ctx : EvalContext) (l r : DTuple) :
    ∀ (ps1 : List ((Nat × Nat) × CmpFn)) (q : (Nat × Nat) × CmpFn)
      (ps2 : List ((Nat × Nat) × CmpFn)) (e : String),
      (∀ x ∈ ps1, pairGood ctx l r x) →
      l.getD q.1.1 Datum.dnull ≠ Datum.dnull →
      r.getD q.1.2 Datum.dnull ≠ Datum.dnull →
      q.2 ctx (l.getD q.1.1 Datum.dnull) (r.getD q.1.2 Datum.dnull) = .error e →
      evalLoop ctx l r (ps1 ++ q :: ps2) = .error e := by
  intro ps1
  induction ps1 with
  | nil =>
    intro q ps2 e _ hq1 hq2 hqe
    obtain ⟨⟨li, ri⟩, cmp⟩ := q
    dsimp only at hq1 hq2 hqe
    simp only [List.nil_append, evalLoop]
    rw [if_neg (not_or.mpr ⟨hq1, hq2⟩), hqe]
  | cons x ps1 ih =>
    intro q ps2 e hgood hq1 hq2 hqe
    obtain ⟨⟨li, ri⟩, cmp⟩ := x
    have hx := hgood _ (List.mem_cons_self _ _)
    simp only [pairGood] at hx
    obtain ⟨h1, h2, h3⟩ := hx
    simp only [List.cons_append, evalLoop]
    rw [if_neg (not_or.mpr ⟨h1, h2⟩), h3]
    dsimp only
    rw [if_neg (by simp)]
    exact ih q ps2 e (fun y hy => hgood _ (List.mem_cons_of_mem _ hy)) hq1 hq2 hqe

/-- Under the construction invariant that the per-pair lists all have the
USING-pair count, `evalPairs` has that length. -/
theorem evalPairs_length (p : EqualityPredicate)
    (hl : p.leftUsingIndices.length = p.leftColNames.length)
    (hr : p.rightUsingIndices.length = p.leftColNames.length)
    (hc : p.usingCmp.length = p.leftColNames.length) :
    p.evalPairs.length = p.leftColNames.length := by
  simp [EqualityPredicate.evalPairs, List.length_take, List.length_zip, hl, hr, hc]

/-- Under the construction invariant, pair `i` of `evalPairs` is the triple
of the three lists' entries at `i`. -/
theorem evalPairs_getD (p : EqualityPredicate)
    (hl : p.leftUsingIndices.length = p.leftColNames.length)
    (hr : p.rightUsingIndices.length = p.leftColNames.length)
    (hc : p.usingCmp.length = p.leftColNames.length)
    (i : Nat) (hi : i < p.leftColNames.length) :
    p.evalPairs.getD i ((0, 0), defaultCmp) =
      ((p.leftUsingIndices.getD i 0, p.rightUsingIndices.getD i 0),
        p.usingCmp.getD i defaultCmp) := by
  have h1 : i < p.evalPairs.length := by rw [evalPairs_length p hl hr hc]; omega
  have hil : i < p.leftUsingIndices.length := by omega
  have hir : i < p.rightUsingIndices.length := by omega
  have hic : i < p.usingCmp.length := by omega
  rw [List.getD_eq_getElem?_getD, List.getElem?_eq_getElem h1, Option.getD_some]
  simp only [EqualityPredicate.evalPairs, List.getElem_take, List.getElem_zip]
  rw [List.getD_eq_getElem?_getD, List.getElem?_eq_getElem hil, Option.getD_some,
    List.getD_eq_getElem?_getD, List.getElem?_eq_getElem hir, Option.getD_some,
    List.getD_eq_getElem?_getD, List.getElem?_eq_getElem hic, Option.getD_some]

/-- C1: for the Equality variant under the construction length invariant,
`eval` returns true iff every USING pair is non-null on both sides and its
comparison function returns true; a null at the first unsettled pair makes
`eval` return false with no error regardless of later pairs; a comparison
error at the first unsettled pair is propagated regardless of later pairs. -/
theorem equality_eval_spec (p : EqualityPredicate) (result leftRow rightRow : DTuple)
    (hl : p.leftUsingIndices.length = p.leftColNames.length)
    (hr : p.rightUsingIndices.length = p.leftColNames.length)
    (hc : p.usingCmp.length = p.leftColNames.length) :
    (p.eval result leftRow rightRow = .ok true ↔
      ∀ i < p.leftColNames.length, p.pairMatches leftRow rightRow i) ∧
    (∀ i < p.leftColNames.length,
      (∀ j < i, p.pairMatches leftRow rightRow j) →
      (p.leftValAt leftRow i = Datum.dnull ∨ p.rightValAt rightRow i = Datum.dnull) →
      p.eval result leftRow rightRow = .ok false) ∧
    (∀ i < p.leftColNames.length, ∀ e,
      (∀ j < i, p.pairMatches leftRow rightRow j) →
      p.leftValAt leftRow i ≠ Datum.dnull → p.rightValAt rightRow i ≠ Datum.dnull →
      p.cmpAt i p.evalCtx (p.leftValAt leftRow i) (p.rightValAt rightRow i) = .error e →
      p.eval result leftRow rightRow = .error e) := by
  have hplen := evalPairs_length p hl hr hc
  have hbridge : ∀ i, i < p.leftColNames.length →
      (pairGood p.evalCtx leftRow rightRow (p.evalPairs.getD i ((0, 0), defaultCmp)) ↔
        p.pairMatches leftRow rightRow i) := by
    intro i hi
    rw [evalPairs_getD p hl hr hc i hi]
    exact Iff.rfl
  have hpref : ∀ i, i < p.leftColNames.length →
      (∀ j < i, p.pairMatches leftRow rightRow j) →
      ∀ x ∈ p.evalPairs.take i, pairGood p.evalCtx leftRow rightRow x := by
    intro i hi hj
    rw [forall_mem_iff_getD _ ((0, 0), defaultCmp)]
    intro j hjlen
    have hjlt : j < i := by
      have := List.length_take i p.evalPairs ▸ hjlen
      omega
    have hjn : j < p.leftColNames.length := by omega
    rw [getD_take _ _ _ _ hjlt]
    exact (hbridge j hjn).mpr (hj j hjlt)
  refine ⟨?_, ?_, ?_⟩
  · rw [show p.eval result leftRow rightRow = evalLoop p.evalCtx leftRow rightRow p.evalPairs
      from rfl]
    rw [evalLoop_ok_true_iff, forall_mem_iff_getD _ ((0, 0), defaultCmp), hplen]
    constructor
    · intro h i hi
      exact (hbridge i hi).mp (h i hi)
    · intro h i hi
      exact (hbridge i hi).mpr (h i hi)
  · intro i hi hj hnull
    have hi' : i < p.evalPairs.length := by omega
    have hdecomp : p.evalPairs = p.evalPairs.take i ++
        p.evalPairs.getD i ((0, 0), defaultCmp) :: p.evalPairs.drop (i + 1) := by
      conv_lhs => rw [← List.take_append_drop i p.evalPairs]
      rw [drop_eq_getD_cons _ ((0, 0), defaultCmp) i hi']
    show evalLoop p.evalCtx leftRow rightRow p.evalPairs = .ok false
    rw [hdecomp]
    apply evalLoop_break_null p.evalCtx leftRow rightRow _ _ _ (hpref i hi hj)
    rw [evalPairs_getD p hl hr hc i hi]
    exact hnull
  · intro i hi e hj hn1 hn2 herr
    have hi' : i < p.evalPairs.length := by omega
    have hdecomp : p.evalPairs = p.evalPairs.take i ++
        p.evalPairs.getD i ((0, 0), defaultCmp) :: p.evalPairs.drop (i + 1) := by
      conv_lhs => rw [← List.take_append_drop i p.evalPairs]
      rw [drop_eq_getD_cons _ ((0, 0), defaultCmp) i hi']
    show evalLoop p.evalCtx leftRow rightRow p.evalPairs = .error e
    rw [hdecomp]
    apply evalLoop_break_error p.evalCtx leftRow rightRow _ _ _ e (hpref i hi hj) <;>
      rw [evalPairs_getD p hl hr hc i hi]
    · exact hn1
    · exact hn2
    · exact herr

/-- Witness for C1: `USING(a)` over rows agreeing on non-null `a`. -/
theorem equality_eval_spec_witness :
    (samplePred.eval [] [Datum.dint 1, Datum.dint 10] [Datum.dint 1, Datum.dint 100] =
        .ok true ↔
      ∀ i < samplePred.leftColNames.length,
        samplePred.pairMatches [Datum.dint 1, Datum.dint 10] [Datum.dint 1, Datum.dint 100] i) ∧
    (∀ i < samplePred.leftColNames.length,
      (∀ j < i, samplePred.pairMatches [Datum.dint 1, Datum.dint 10]
        [Datum.dint 1, Datum.dint 100] j) →
      (samplePred.leftValAt [Datum.dint 1, Datum.dint 10] i = Datum.dnull ∨
        samplePred.rightValAt [Datum.dint 1, Datum.dint 100] i = Datum.dnull) →
      samplePred.eval [] [Datum.dint 1, Datum.dint 10] [Datum.dint 1, Datum.dint 100] =
        .ok false) ∧
    (∀ i < samplePred.leftColNames.length, ∀ e,
      (∀ j < i, samplePred.pairMatches [Datum.dint 1, Datum.dint 10]
        [Datum.dint 1, Datum.dint 100] j) →
      samplePred.leftValAt [Datum.dint 1, Datum.dint 10] i ≠ Datum.dnull →
      samplePred.rightValAt [Datum.dint 1, Datum.dint 100] i ≠ Datum.dnull →
      samplePred.cmpAt i samplePred.evalCtx
        (samplePred.leftValAt [Datum.dint 1, Datum.dint 10] i)
        (samplePred.rightValAt [Datum.dint 1, Datum.dint 100] i) = .error e →
      samplePred.eval [] [Datum.dint 1, Datum.dint 10] [Datum.dint 1, Datum.dint 100] =
        .error e) :=
  equality_eval_spec samplePred [] [Datum.dint 1, Datum.dint 10] [Datum.dint 1, Datum.dint 100]
    rfl rfl rfl

/-- Pairing two equal-length name lists and indexing the pairs. -/
theorem zip_getD_pair (ln rn : List String) (hlen : ln.length = rn.length) (t : Nat)
    (ht : t < ln.length) :
    (ln.zip rn).getD t ("", "") = (ln.getD t "", rn.getD t "") := by
  have h1 : t < (ln.zip rn).length := by
    simp only [List.length_zip]
    omega
  have h2 : t < rn.length := by omega
  rw [List.getD_eq_getElem?_getD, List.getElem?_eq_getElem h1, Option.getD_some,
    List.getElem_zip]
  rw [List.getD_eq_getElem?_getD, List.getElem?_eq_getElem ht, Option.getD_some,
    List.getD_eq_getElem?_getD, List.getElem?_eq_getElem h2, Option.getD_some]

/-- If some USING pair's name fails to resolve on its side, the pair loop of
`makeEqualityPredicate` returns an error. -/
theorem buildPairs_err_of_pick (findEq : Ty → Ty → Option CmpFn) (lc rc : ResultColumns) :
    ∀ (names : List (String × String)) (i : Nat) (st : BuildState),
      (∃ t, t < names.length ∧
        ((∃ e, pickUsingColumn lc (reNormalizeName (names.getD t ("", "")).1) "left" =
            .error e) ∨
         (∃ e, pickUsingColumn rc (reNormalizeName (names.getD t ("", "")).2) "right" =
            .error e))) →
      ∃ e, buildPairs findEq lc rc names i st = .error e := by
  intro names
  induction names with
  | nil =>
    intro i st h
    obtain ⟨t, ht, _⟩ := h
    simp only [List.length_nil] at ht
    omega
  | cons hd rest ih =>
    intro i st h
    obtain ⟨ln, rn⟩ := hd
    rcases hpl : pickUsingColumn lc (reNormalizeName ln) "left" with e | v
    · exact ⟨e, by simp [buildPairs, hpl]⟩
    · obtain ⟨leftIdx, leftType⟩ := v
      rcases hpr : pickUsingColumn rc (reNormalizeName rn) "right" with e | w
      · exact ⟨e, by simp [buildPairs, hpl, hpr]⟩
      · obtain ⟨rightIdx, rightType⟩ := w
        rcases hfe : findEq leftType rightType with _ | fn
        · exact ⟨"JOIN/USING types " ++ leftType.str ++ " for left column " ++
            reNormalizeName ln ++ " and " ++ rightType.str ++ " for right column " ++
            reNormalizeName rn ++ " cannot be matched",
            by simp [buildPairs, hpl, hpr, hfe]⟩
        · obtain ⟨t, ht, hcase⟩ := h
          cases t with
          | zero =>
            exfalso
            simp only [List.getD_cons_zero] at hcase
            rcases hcase with ⟨e, he⟩ | ⟨e, he⟩
            · rw [hpl] at he
              exact Except.noConfusion he
            · rw [hpr] at he
              exact Except.noConfusion he
          | succ t' =>
            simp only [List.getD_cons_succ] at hcase
            simp only [List.length_cons] at ht
            obtain ⟨e, he⟩ := ih (i + 1) _ ⟨t', by omega, hcase⟩
            refine ⟨e, ?_⟩
            simp only [buildPairs, hpl, hpr, hfe]
            exact he

/-- If some USING pair resolves on both sides but its two types admit no
equality function, the pair loop of `makeEqualityPredicate` returns an
error. -/
theorem buildPairs_err_of_nofn (findEq : Ty → Ty → Option CmpFn) (lc rc : ResultColumns) :
    ∀ (names : List (String × String)) (i : Nat) (st : BuildState),
      (∃ t, t < names.length ∧ ∃ li lt ri rt,
        pickUsingColumn lc (reNormalizeName (names.getD t ("", "")).1) "left" = .ok (li, lt) ∧
        pickUsingColumn rc (reNormalizeName (names.getD t ("", "")).2) "right" = .ok (ri, rt) ∧
        findEq lt rt = none) →
      ∃ e, buildPairs findEq lc rc names i st = .error e := by
  intro names
  induction names with
  | nil =>
    intro i st h
    obtain ⟨t, ht, _⟩ := h
    simp only [List.length_nil] at ht
    omega
  | cons hd rest ih =>
    intro i st h
    obtain ⟨ln, rn⟩ := hd
    rcases hpl : pickUsingColumn lc (reNormalizeName ln) "left" with e | v
    · exact ⟨e, by simp [buildPairs, hpl]⟩
    · obtain ⟨leftIdx, leftType⟩ := v
      rcases hpr : pickUsingColumn rc (reNormalizeName rn) "right" with e | w
      · exact ⟨e, by simp [buildPairs, hpl, hpr]⟩
      · obtain ⟨rightIdx, rightType⟩ := w
        rcases hfe : findEq leftType rightType with _ | fn
        · exact ⟨"JOIN/USING types " ++ leftType.str ++ " for left column " ++
            reNormalizeName ln ++ " and " ++ rightType.str ++ " for right column " ++
            reNormalizeName rn ++ " cannot be matched",
            by simp [buildPairs, hpl, hpr, hfe]⟩
        · obtain ⟨t, ht, li, lt, ri, rt, h1, h2, h3⟩ := h
          cases t with
          | zero =>
            exfalso
            simp only [List.getD_cons_zero] at h1 h2
            rw [hpl] at h1
            rw [hpr] at h2
            obtain ⟨rfl, rfl⟩ := Prod.mk.inj (Except.ok.inj h1)
            obtain ⟨rfl, rfl⟩ := Prod.mk.inj (Except.ok.inj h2)
            rw [hfe] at h3
            exact Option.noConfusion h3
          | succ t' =>
            simp only [List.getD_cons_succ] at h1 h2
            simp only [List.length_cons] at ht
            obtain ⟨e, he⟩ := ih (i + 1) _ ⟨t', by omega, li, lt, ri, rt, h1, h2, h3⟩
            refine ⟨e, ?_⟩
            simp only [buildPairs, hpl, hpr, hfe]
            exact he

/-- The duplicate scan of `makeUsingPredicate` reports a duplicate whenever
the (normalized) name list contains one, or a name already seen. -/
theorem findDuplicate_some :
    ∀ (names : List String) (seen : List String),
      ((∃ i j, i < j ∧ j < names.length ∧
          reNormalizeName (names.getD i "") = reNormalizeName (names.getD j "")) ∨
        (∃ t, t < names.length ∧ reNormalizeName (names.getD t "") ∈ seen)) →
      ∃ d, findDuplicate names seen = some d := by
  intro names
  induction names with
  | nil =>
    intro seen h
    rcases h with ⟨i, j, _, hj, _⟩ | ⟨t, ht, _⟩
    · simp only [List.length_nil] at hj
      omega
    · simp only [List.length_nil] at ht
      omega
  | cons n rest ih =>
    intro seen h
    by_cases hseen : reNormalizeName n ∈ seen
    · exact ⟨reNormalizeName n, by simp [findDuplicate, hseen]⟩
    · have hstep : findDuplicate (n :: rest) seen =
          findDuplicate rest (reNormalizeName n :: seen) := by
        simp [findDuplicate, hseen]
      rw [hstep]
      apply ih
      rcases h with ⟨i, j, hij, hj, heq⟩ | ⟨t, ht, hmem⟩
      · cases i with
        | zero =>
          right
          cases j with
          | zero => omega
          | succ j' =>
            refine ⟨j', ?_, ?_⟩
            · simp only [List.length_cons] at hj
              omega
            · simp only [List.getD_cons_zero, List.getD_cons_succ] at heq
              rw [← heq]
              exact List.mem_cons_self _ _
        | succ i' =>
          left
          cases j with
          | zero => omega
          | succ j' =>
            refine ⟨i', j', by omega, ?_, ?_⟩
            · simp only [List.length_cons] at hj
              omega
            · simpa only [List.getD_cons_succ] using heq
      · cases t with
        | zero =>
          exfalso
          simp only [List.getD_cons_zero] at hmem
          exact hseen hmem
        | succ t' =>
          right
          refine ⟨t', ?_, ?_⟩
          · simp only [List.length_cons] at ht
            omega
          · simp only [List.getD_cons_succ] at hmem
            exact List.mem_cons_of_mem _ hmem

/-- Counterexample to C5 as stated: mismatched USING name-list lengths are
not reported as an (ordinary) error — the construction panics (a fatal
assertion), so no error value is ever returned for this fault. -/
theorem mismatched_lengths_panic_cex :
    (makeEqualityPredicate sampleFindEq sampleLeftInfo sampleRightInfo ["a"] []).isErr = false ∧
    (makeEqualityPredicate sampleFindEq sampleLeftInfo sampleRightInfo ["a"] []).isFatal =
      true :=
  ⟨rfl, rfl⟩

/-- C5 (amended): construction is all-or-nothing — a duplicate USING name, an
unresolved USING name, and a type pair with no equality function are each
reported immediately as an ordinary error; mismatched name-list lengths are
rejected immediately by a fatal panic rather than an error return; in every
case no partially-built predicate is returned. -/
theorem construction_all_or_nothing :
    (∀ (findEq : Ty → Ty → Option CmpFn) (left right : DataSourceInfo)
        (leftColNames rightColNames : List String),
      leftColNames.length ≠ rightColNames.length →
      makeEqualityPredicate findEq left right leftColNames rightColNames =
        .fatal "left columns' length doesn't match right columns' length in EqualityPredicate") ∧
    (∀ (findEq : Ty → Ty → Option CmpFn) (left right : DataSourceInfo)
        (colNames : List String),
      (∃ i j, i < j ∧ j < colNames.length ∧
        reNormalizeName (colNames.getD i "") = reNormalizeName (colNames.getD j "")) →
      ∃ e, makeUsingPredicate findEq left right colNames = .err e) ∧
    (∀ (findEq : Ty → Ty → Option CmpFn) (left right : DataSourceInfo)
        (ln rn : List String),
      ln.length = rn.length →
      (∃ t, t < ln.length ∧
        ((∃ e, pickUsingColumn left.sourceColumns (reNormalizeName (ln.getD t "")) "left" =
            .error e) ∨
         (∃ e, pickUsingColumn right.sourceColumns (reNormalizeName (rn.getD t "")) "right" =
            .error e))) →
      ∃ e, makeEqualityPredicate findEq left right ln rn = .err e) ∧
    (∀ (findEq : Ty → Ty → Option CmpFn) (left right : DataSourceInfo)
        (ln rn : List String),
      ln.length = rn.length →
      (∃ t, t < ln.length ∧ ∃ li lt ri rt,
        pickUsingColumn left.sourceColumns (reNormalizeName (ln.getD t "")) "left" =
          .ok (li, lt) ∧
        pickUsingColumn right.sourceColumns (reNormalizeName (rn.getD t "")) "right" =
          .ok (ri, rt) ∧
        findEq lt rt = none) →
      ∃ e, makeEqualityPredicate findEq left right ln rn = .err e) := by
  refine ⟨?_, ?_, ?_, ?_⟩
  · intro findEq left right ln rn hne
    simp [makeEqualityPredicate, makeEqualityPredicateFull, if_pos hne]
  · intro findEq left right colNames hdup
    obtain ⟨d, hd⟩ := findDuplicate_some colNames [] (Or.inl hdup)
    exact ⟨"column \"" ++ d ++ "\" appears more than once in USING clause",
      by simp [makeUsingPredicate, hd]⟩
  · intro findEq left right ln rn hlen hex
    obtain ⟨t, ht, hcase⟩ := hex
    have hzip := zip_getD_pair ln rn hlen t ht
    have ht' : t < (ln.zip rn).length := by
      simp only [List.length_zip]
      omega
    obtain ⟨e, he⟩ := buildPairs_err_of_pick findEq left.sourceColumns right.sourceColumns
      (ln.zip rn) 0 _ ⟨t, ht', by rw [hzip]; exact hcase⟩
    refine ⟨e, ?_⟩
    simp only [makeEqualityPredicate, makeEqualityPredicateFull,
      if_neg (by omega : ¬ln.length ≠ rn.length)]
    rw [he]
  · intro findEq left right ln rn hlen hex
    obtain ⟨t, ht, li, lt, ri, rt, h1, h2, h3⟩ := hex
    have hzip := zip_getD_pair ln rn hlen t ht
    have ht' : t < (ln.zip rn).length := by
      simp only [List.length_zip]
      omega
    obtain ⟨e, he⟩ := buildPairs_err_of_nofn findEq left.sourceColumns right.sourceColumns
      (ln.zip rn) 0 _ ⟨t, ht', li, lt, ri, rt, by rw [hzip]; exact h1, by rw [hzip]; exact h2, h3⟩
    refine ⟨e, ?_⟩
    simp only [makeEqualityPredicate, makeEqualityPredicateFull,
      if_neg (by omega : ¬ln.length ≠ rn.length)]
    rw [he]

/-- Witness for C5 (amended): the four construction faults at concrete
inputs. -/
theorem construction_all_or_nothing_witness :
    makeEqualityPredicate sampleFindEq sampleLeftInfo sampleRightInfo ["a"] [] =
      .fatal "left columns' length doesn't match right columns' length in EqualityPredicate" ∧
    (∃ e, makeUsingPredicate sampleFindEq sampleLeftInfo sampleRightInfo ["a", "a"] = .err e) ∧
    (∃ e, makeEqualityPredicate sampleFindEq sampleLeftInfo sampleRightInfo ["zz"] ["zz"] =
      .err e) ∧
    (∃ e, makeEqualityPredicate sampleFindEq sampleLeftInfo sampleStrRightInfo ["a"] ["a"] =
      .err e) :=
  ⟨construction_all_or_nothing.1 sampleFindEq sampleLeftInfo sampleRightInfo ["a"] []
      (by decide),
   construction_all_or_nothing.2.1 sampleFindEq sampleLeftInfo sampleRightInfo ["a", "a"]
      ⟨0, 1, by omega, by decide, rfl⟩,
   construction_all_or_nothing.2.2.1 sampleFindEq sampleLeftInfo sampleRightInfo ["zz"] ["zz"]
      rfl ⟨0, by decide, Or.inl
        ⟨"column \"zz\" specified in USING clause does not exist in left table", by decide⟩⟩,
   construction_all_or_nothing.2.2.2 sampleFindEq sampleLeftInfo sampleStrRightInfo ["a"] ["a"]
      rfl ⟨0, by decide, 0, Ty.tInt, 0, Ty.tString, by decide, by decide, rfl⟩⟩

/-- Reading back the position just written. -/
theorem getD_set_self' {α : Type} (l : List α) (i : Nat) (v d : α) (h : i < l.length) :
    (l.set i v).getD i d = v := by
  rw [List.getD_eq_getElem?_getD, List.getElem?_set_self h, Option.getD_some]

/-- Writing one position leaves every other position unchanged. -/
theorem getD_set_ne' {α : Type} (l : List α) {i j : Nat} (hne : i ≠ j) (v d : α) :
    (l.set i v).getD j d = l.getD j d := by
  rw [List.getD_eq_getElem?_getD, List.getElem?_set_ne hne, ← List.getD_eq_getElem?_getD]

/-- Every position of the all-sentinel array reads the sentinel. -/
theorem getD_replicate_none (n j : Nat) :
    (List.replicate n invalidColIdx).getD j invalidColIdx = invalidColIdx := by
  rw [List.getD_eq_getElem?_getD]
  by_cases hj : j < n
  · rw [List.getElem?_eq_getElem (by simpa using hj)]
    simp [List.getElem_replicate]
  · rw [List.getElem?_eq_none (by simpa using Nat.le_of_not_lt hj)]
    rfl

/-- The search loop of `pickUsingColumn` only produces its accumulator or an
index within the scanned range. -/
theorem pickLoop_some_lt (colName : String) :
    ∀ (cols : ResultColumns) (j : Nat) (acc : ColIdx) (idx : Nat),
      pickLoop colName cols j acc = some idx →
      acc = some idx ∨ (j ≤ idx ∧ idx < j + cols.length) := by
  intro cols
  induction cols with
  | nil =>
    intro j acc idx h
    simp only [pickLoop] at h
    exact Or.inl h
  | cons col rest ih =>
    intro j acc idx h
    simp only [pickLoop] at h
    by_cases hh : col.hidden
    · rw [if_pos hh] at h
      rcases ih (j + 1) acc idx h with h' | ⟨h1, h2⟩
      · exact Or.inl h'
      · right
        simp only [List.length_cons]
        omega
    · rw [if_neg hh] at h
      by_cases hm : reNormalizeName col.name = colName
      · rw [if_pos hm] at h
        rcases ih (j + 1) (some j) idx h with h' | ⟨h1, h2⟩
        · right
          have : j = idx := Option.some.inj h'
          simp only [List.length_cons]
          omega
        · right
          simp only [List.length_cons]
          omega
      · rw [if_neg hm] at h
        rcases ih (j + 1) acc idx h with h' | ⟨h1, h2⟩
        · exact Or.inl h'
        · right
          simp only [List.length_cons]
          omega

/-- A successfully resolved USING column's index is within the schema. -/
theorem pickUsingColumn_ok_lt (cols : ResultColumns) (colName context : String)
    (idx : Nat) (t : Ty) (h : pickUsingColumn cols colName context = .ok (idx, t)) :
    idx < cols.length := by
  simp only [pickUsingColumn] at h
  rcases hp : pickLoop colName cols 0 invalidColIdx with _ | i
  · rw [hp] at h
    exact Except.noConfusion h
  · rw [hp] at h
    obtain ⟨rfl, rfl⟩ := Prod.mk.inj (Except.ok.inj h)
    rcases pickLoop_some_lt colName cols 0 invalidColIdx i hp with h' | ⟨_, h2⟩
    · exact absurd h' (by simp [invalidColIdx])
    · omega

/-- What a successful pair loop of `makeEqualityPredicate` adds to the
accumulated state: per-pair index lists `L`/`R` of the USING positions (all
within their schemas), one merged column per pair taken from the left side,
one comparison function per pair, and `usedLeft`/`usedRight` marked exactly
at the pair positions with merged slots in `[i, i + #pairs)`. -/
theorem buildPairs_ok_spec (findEq : Ty → Ty → Option CmpFn) (lc rc : ResultColumns) :
    ∀ (names : List (String × String)) (i : Nat) (st st' : BuildState),
      buildPairs findEq lc rc names i st = .ok st' →
      st.usedLeft.length = lc.length →
      st.usedRight.length = rc.length →
      ∃ L R : List Nat,
        st'.leftUsingIndices = st.leftUsingIndices ++ L ∧
        st'.rightUsingIndices = st.rightUsingIndices ++ R ∧
        L.length = names.length ∧
        R.length = names.length ∧
        (∀ k ∈ L, k < lc.length) ∧
        (∀ k ∈ R, k < rc.length) ∧
        st'.columns = st.columns ++ L.map (fun k => lc.getD k default) ∧
        st'.cmpOps.length = st.cmpOps.length + names.length ∧
        st'.usedLeft.length = st.usedLeft.length ∧
        st'.usedRight.length = st.usedRight.length ∧
        (∀ j, st'.usedLeft.getD j invalidColIdx = st.usedLeft.getD j invalidColIdx ∨
          (j ∈ L ∧ ∃ m, st'.usedLeft.getD j invalidColIdx = some m ∧ i ≤ m ∧
            m < i + names.length)) ∧
        (∀ j, st'.usedRight.getD j invalidColIdx = st.usedRight.getD j invalidColIdx ∨
          (j ∈ R ∧ ∃ m, st'.usedRight.getD j invalidColIdx = some m ∧ i ≤ m ∧
            m < i + names.length)) ∧
        (∀ j ∈ L, st'.usedLeft.getD j invalidColIdx ≠ invalidColIdx) ∧
        (∀ j ∈ R, st'.usedRight.getD j invalidColIdx ≠ invalidColIdx) := by
  intro names
  induction names with
  | nil =>
    intro i st st' h _ _
    simp only [buildPairs] at h
    obtain rfl := Except.ok.inj h
    exact ⟨[], [], by simp, by simp, rfl, rfl, by simp, by simp, by simp, by simp, rfl, rfl,
      fun j => Or.inl rfl, fun j => Or.inl rfl, by simp, by simp⟩
  | cons hd rest ih =>
    intro i st st' h hL hR
    obtain ⟨ln, rn⟩ := hd
    rcases hpl : pickUsingColumn lc (reNormalizeName ln) "left" with e | v
    · simp only [buildPairs, hpl] at h
      exact Except.noConfusion h
    · obtain ⟨leftIdx, leftType⟩ := v
      rcases hpr : pickUsingColumn rc (reNormalizeName rn) "right" with e | w
      · simp only [buildPairs, hpl, hpr] at h
        exact Except.noConfusion h
      · obtain ⟨rightIdx, rightType⟩ := w
        rcases hfe : findEq leftType rightType with _ | fn
        · simp only [buildPairs, hpl, hpr, hfe] at h
          exact Except.noConfusion h
        · have hleftlt : leftIdx < lc.length := pickUsingColumn_ok_lt _ _ _ _ _ hpl
          have hrightlt : rightIdx < rc.length := pickUsingColumn_ok_lt _ _ _ _ _ hpr
          simp only [buildPairs, hpl, hpr, hfe] at h
          obtain ⟨L', R', c1, c2, c3, c4, c5, c6, c7, c8, c9, c10, c11, c12, c13, c14⟩ :=
            ih (i + 1) _ st' h (by simp [hL]) (by simp [hR])
          dsimp only at c1 c2 c5 c6 c7 c8 c9 c10 c11 c12 c13 c14
          refine ⟨leftIdx :: L', rightIdx :: R', ?_, ?_, ?_, ?_, ?_, ?_, ?_, ?_, ?_, ?_,
            ?_, ?_, ?_, ?_⟩
          · rw [c1]
            simp
          · rw [c2]
            simp
          · simp [c3]
          · simp [c4]
          · rintro k (_ | hk)
            · exact hleftlt
            · exact c5 k (by assumption)
          · rintro k (_ | hk)
            · exact hrightlt
            · exact c6 k (by assumption)
          · rw [c7]
            simp
          · simp only [List.length_append, List.length_singleton] at c8
            simp only [List.length_cons]
            omega
          · simp only [c9, List.length_set]
          · simp only [c10, List.length_set]
          · intro j
            rcases c11 j with hpres | ⟨hjL', m, hm, hm1, hm2⟩
            · by_cases hji : j = leftIdx
              · subst hji
                right
                refine ⟨List.mem_cons_self _ _, i, ?_, le_refl i, ?_⟩
                · rw [hpres, getD_set_self' _ _ _ _ (by omega)]
                · simp only [List.length_cons]
                  omega
              · left
                rw [hpres, getD_set_ne' _ (fun hh => hji hh.symm) _ _]
            · right
              refine ⟨List.mem_cons_of_mem _ hjL', m, hm, by omega, ?_⟩
              simp only [List.length_cons]
              omega
          · intro j
            rcases c12 j with hpres | ⟨hjR', m, hm, hm1, hm2⟩
            · by_cases hji : j = rightIdx
              · subst hji
                right
                refine ⟨List.mem_cons_self _ _, i, ?_, le_refl i, ?_⟩
                · rw [hpres, getD_set_self' _ _ _ _ (by omega)]
                · simp only [List.length_cons]
                  omega
              · left
                rw [hpres, getD_set_ne' _ (fun hh => hji hh.symm) _ _]
            · right
              refine ⟨List.mem_cons_of_mem _ hjR', m, hm, by omega, ?_⟩
              simp only [List.length_cons]
              omega
          · rintro j (_ | hj)
            · rcases c11 leftIdx with hpres | ⟨_, m, hm, _, _⟩
              · rw [hpres, getD_set_self' _ _ _ _ (by omega)]
                simp [invalidColIdx]
              · rw [hm]
                simp [invalidColIdx]
            · exact c13 j (by assumption)
          · rintro j (_ | hj)
            · rcases c12 rightIdx with hpres | ⟨_, m, hm, _, _⟩
              · rw [hpres, getD_set_self' _ _ _ _ (by omega)]
                simp [invalidColIdx]
              · rw [hm]
                simp [invalidColIdx]
            · exact c14 j (by assumption)

/-- What the rest-column loop of `makeEqualityPredicate` does: the rest
indices are exactly the scanned positions still marked with the sentinel, in
scan order; the merged columns are extended by their descriptors; each such
position is assigned the next merged slot; every scanned position ends up
assigned. -/
theorem restLoop_spec (cols : ResultColumns) :
    ∀ (idxs : List Nat) (used : List ColIdx) (columns : ResultColumns),
      idxs.Nodup →
      (∀ t ∈ idxs, t < used.length) →
      (restLoop cols idxs used columns).1 =
          idxs.filter (fun t => decide (used.getD t invalidColIdx = invalidColIdx)) ∧
      (restLoop cols idxs used columns).2.2 =
          columns ++ ((restLoop cols idxs used columns).1).map (fun t => cols.getD t default) ∧
      (restLoop cols idxs used columns).2.1.length = used.length ∧
      (∀ j, (restLoop cols idxs used columns).2.1.getD j invalidColIdx =
            used.getD j invalidColIdx ∨
        (∃ m, (restLoop cols idxs used columns).2.1.getD j invalidColIdx = some m ∧
          columns.length ≤ m ∧
          m < columns.length + ((restLoop cols idxs used columns).1).length)) ∧
      (∀ j ∈ idxs, (restLoop cols idxs used columns).2.1.getD j invalidColIdx ≠
        invalidColIdx) := by
  intro idxs
  induction idxs with
  | nil =>
    intro used columns _ _
    refine ⟨rfl, by simp [restLoop], rfl, fun j => Or.inl rfl, by simp⟩
  | cons t ts ih =>
    intro used columns hnd hbound
    obtain ⟨htmem, hndts⟩ := List.nodup_cons.mp hnd
    have htlen : t < used.length := hbound t (List.mem_cons_self _ _)
    by_cases hcond : used.getD t invalidColIdx = invalidColIdx
    · have hstep : restLoop cols (t :: ts) used columns =
          (t :: (restLoop cols ts (used.set t (some columns.length))
              (columns ++ [cols.getD t default])).1,
            (restLoop cols ts (used.set t (some columns.length))
              (columns ++ [cols.getD t default])).2) := by
        simp only [restLoop, if_pos hcond]
      obtain ⟨i1, i2, i3, i4, i5⟩ := ih (used.set t (some columns.length))
        (columns ++ [cols.getD t default]) hndts
        (fun x hx => by simpa using hbound x (List.mem_cons_of_mem _ hx))
      have hfiltereq : (restLoop cols ts (used.set t (some columns.length))
          (columns ++ [cols.getD t default])).1 =
          ts.filter (fun x => decide (used.getD x invalidColIdx = invalidColIdx)) := by
        rw [i1]
        apply List.filter_congr
        intro x hx
        have hxt : t ≠ x := fun hh => htmem (hh ▸ hx)
        rw [getD_set_ne' _ hxt]
      rw [hstep]
      refine ⟨?_, ?_, ?_, ?_, ?_⟩
      · rw [List.filter_cons_of_pos (by simpa using hcond), hfiltereq]
      · dsimp only
        rw [i2]
        simp
      · dsimp only
        rw [i3, List.length_set]
      · intro j
        dsimp only
        rcases i4 j with hpres | ⟨m, hm, hm1, hm2⟩
        · by_cases hji : j = t
          · subst hji
            right
            refine ⟨columns.length, ?_, le_refl _, ?_⟩
            · rw [hpres, getD_set_self' _ _ _ _ htlen]
            · simp only [List.length_cons]
              omega
          · left
            rw [hpres, getD_set_ne' _ (fun hh => hji hh.symm)]
        · right
          simp only [List.length_append, List.length_singleton] at hm1 hm2
          refine ⟨m, hm, by omega, ?_⟩
          simp only [List.length_cons]
          omega
      · intro j hj
        dsimp only
        rcases List.mem_cons.mp hj with rfl | hj'
        · rcases i4 j with hpres | ⟨m, hm, _, _⟩
          · rw [hpres, getD_set_self' _ _ _ _ htlen]
            simp [invalidColIdx]
          · rw [hm]
            simp [invalidColIdx]
        · exact i5 j hj'
    · have hstep : restLoop cols (t :: ts) used columns = restLoop cols ts used columns := by
        simp only [restLoop, if_neg hcond]
      obtain ⟨i1, i2, i3, i4, i5⟩ := ih used columns hndts
        (fun x hx => hbound x (List.mem_cons_of_mem _ hx))
      rw [hstep]
      refine ⟨?_, i2, i3, i4, ?_⟩
      · rw [List.filter_cons_of_neg (by simpa using hcond), i1]
      · intro j hj
        rcases List.mem_cons.mp hj with rfl | hj'
        · rcases i4 j with hpres | ⟨m, hm, _, _⟩
          · rw [hpres]
            exact hcond
          · rw [hm]
            simp [invalidColIdx]
        · exact i5 j hj'

/-- Filtering by a predicate implied by the search predicate does not change
the first match. -/
theorem find?_filter_of_imp {α : Type} (p q : α → Bool)
    (himp : ∀ x, p x = true → q x = true) :
    ∀ l : List α, (l.filter q).find? p = l.find? p := by
  intro l
  induction l with
  | nil => simp
  | cons x xs ih =>
    by_cases hq : q x
    · rw [List.filter_cons_of_pos hq]
      by_cases hp : p x
      · rw [List.find?_cons_of_pos _ hp, List.find?_cons_of_pos _ hp]
      · rw [List.find?_cons_of_neg _ hp, List.find?_cons_of_neg _ hp, ih]
    · have hp : ¬p x = true := fun hpx => hq (himp x hpx)
      rw [List.filter_cons_of_neg (by simpa using hq), ih, List.find?_cons_of_neg _ hp]

/-- Looking up after a Go-map insertion: the inserted key reads the new
value, every other key is unchanged. -/
theorem aliasLookup_insert (m : SourceAliases) (a : String) (v : List ColIdx) (a' : String) :
    aliasLookup (aliasInsert m a v) a' = if a' = a then some v else aliasLookup m a' := by
  simp only [aliasLookup, aliasInsert, List.find?_append]
  by_cases h : a' = a
  · subst h
    have h1 : (m.filter (fun p => decide (p.1 ≠ a'))).find? (fun p => decide (p.1 = a')) =
        none := by
      rw [List.find?_eq_none]
      intro x hx
      have hne := (List.mem_filter.mp hx).2
      simp only [decide_not] at hne
      simp only [decide_eq_true_eq]
      intro hcontra
      rw [hcontra] at hne
      simp at hne
    rw [h1, if_pos rfl]
    simp [List.find?]
  · have h2 : ([(a, v)].find? fun p => decide (p.1 = a')) = none := by
      simp only [List.find?]
      have : decide ((a, v).1 = a') = false := by
        simp only [decide_eq_false_iff_not]
        exact fun hh => h hh.symm
      rw [this]
    rw [h2, if_neg h]
    rw [show (m.filter (fun p => decide (p.1 ≠ a))).find? (fun p => decide (p.1 = a')) =
        m.find? (fun p => decide (p.1 = a')) from
      find?_filter_of_imp _ _ (by
        intro x hx
        simp only [decide_eq_true_eq] at hx ⊢
        exact fun hh => h (hx.symm.trans hh)) m]
    cases m.find? (fun p => decide (p.1 = a')) <;> simp

/-- The last-binding scan started from an accumulator keeps the accumulator
only when the list holds no binding for the key. -/
theorem lastVal_fold_acc :
    ∀ (ra : SourceAliases) (acc : Option (List ColIdx)) (a : String),
      ra.foldl (fun acc' p => if p.1 = a then some p.2 else acc') acc =
        match lastVal ra a with
        | some v => some v
        | none => acc := by
  intro ra
  induction ra with
  | nil => intro acc a; simp [lastVal]
  | cons p rest ih =>
    intro acc a
    rw [List.foldl_cons, ih]
    have hcons : lastVal (p :: rest) a =
        match lastVal rest a with
        | some v => some v
        | none => if p.1 = a then some p.2 else none := by
      rw [show lastVal (p :: rest) a =
          List.foldl (fun acc' q => if q.1 = a then some q.2 else acc')
            (if p.1 = a then some p.2 else none) rest from rfl]
      rw [ih]
    rw [hcons]
    cases lastVal rest a with
    | some v => rfl
    | none =>
      dsimp only
      by_cases hpa : p.1 = a
      · rw [if_pos hpa, if_pos hpa]
      · rw [if_neg hpa, if_neg hpa]

/-- Unfolding the last-binding scan over a cons cell. -/
theorem lastVal_cons (p : String × List ColIdx) (rest : SourceAliases) (a : String) :
    lastVal (p :: rest) a =
      match lastVal rest a with
      | some v => some v
      | none => if p.1 = a then some p.2 else none := by
  rw [show lastVal (p :: rest) a =
      List.foldl (fun acc' q => if q.1 = a then some q.2 else acc')
        (if p.1 = a then some p.2 else none) rest from rfl]
  rw [lastVal_fold_acc]

/-- Folding Go-map insertions of remapped ranges over an initial map: a key
bound in the inserted list reads its last (remapped) binding; any other key
reads the initial map. -/
theorem aliasLookup_fold (u : List ColIdx) (a : String) :
    ∀ (ra : SourceAliases) (m0 : SourceAliases),
      aliasLookup (ra.foldl (fun m p => aliasInsert m p.1 (remapRange u p.2)) m0) a =
        match lastVal ra a with
        | some v => some (remapRange u v)
        | none => aliasLookup m0 a := by
  intro ra
  induction ra with
  | nil => intro m0; simp [lastVal]
  | cons p rest ih =>
    intro m0
    rw [List.foldl_cons, ih, lastVal_cons]
    cases lastVal rest a with
    | some v => rfl
    | none =>
      dsimp only
      rw [aliasLookup_insert]
      by_cases hpa : a = p.1
      · rw [if_pos hpa, if_pos hpa.symm]
      · rw [if_neg hpa, if_neg (fun hh => hpa hh.symm)]

/-- A key absent from the association list has no last binding. -/
theorem lastVal_none_of_not_mem :
    ∀ (ra : SourceAliases) (a : String), a ∉ ra.map Prod.fst → lastVal ra a = none := by
  intro ra
  induction ra with
  | nil => intro a _; rfl
  | cons p rest ih =>
    intro a ha
    simp only [List.map_cons, List.mem_cons] at ha
    push_neg at ha
    rw [lastVal_cons, ih a ha.2]
    dsimp only
    rw [if_neg (fun hh => ha.1 hh.symm)]

/-- With distinct keys, the last binding of a present key is its (unique)
binding. -/
theorem lastVal_of_mem_nodup :
    ∀ (ra : SourceAliases) (a : String) (rr : List ColIdx),
      (a, rr) ∈ ra → (ra.map Prod.fst).Nodup → lastVal ra a = some rr := by
  intro ra
  induction ra with
  | nil => intro a rr h _; exact absurd h (List.not_mem_nil _)
  | cons p rest ih =>
    intro a rr hmem hnd
    simp only [List.map_cons, List.nodup_cons] at hnd
    obtain ⟨hkey, hndrest⟩ := hnd
    rw [lastVal_cons]
    rcases List.mem_cons.mp hmem with rfl | hmem'
    · have hnone : lastVal rest a = none := by
        apply lastVal_none_of_not_mem
        simpa using hkey
      rw [hnone]
      simp
    · rw [ih a rr hmem' hndrest]

/-- The last binding of a key is one of the list's bindings. -/
theorem lastVal_mem :
    ∀ (ra : SourceAliases) (a : String) (v : List ColIdx),
      lastVal ra a = some v → (a, v) ∈ ra := by
  intro ra
  induction ra with
  | nil => intro a v h; exact Option.noConfusion h
  | cons p rest ih =>
    intro a v h
    rw [lastVal_cons] at h
    cases hrest : lastVal rest a with
    | some w =>
      rw [hrest] at h
      simp only [Option.some.injEq] at h
      subst h
      exact List.mem_cons_of_mem _ (ih a w hrest)
    | none =>
      rw [hrest] at h
      simp only at h
      by_cases hpa : p.1 = a
      · rw [if_pos hpa] at h
        have hv : v = p.2 := (Option.some.inj h).symm
        subst hv
        have hpeq : p = (a, p.2) := by
          rw [← hpa]
        rw [← hpeq]
        exact List.mem_cons_self _ _
      · rw [if_neg hpa] at h
        exact Option.noConfusion h

/-- Everything a successful `makeEqualityPredicate` construction guarantees:
one USING index per pair bounded by its schema; the merged columns are the
pair descriptors from the left, then the left rest, then the right rest; the
rest indices are exactly the non-USING positions in original order; the final
`usedLeft`/`usedRight` maps assign every original position a merged position
within bounds; the merged alias map is the remapped merge. -/
theorem constructionFacts (findEq : Ty → Ty → Option CmpFn) (left right : DataSourceInfo)
    (ln rn : List String) (r : EqResult)
    (h : makeEqualityPredicateFull findEq left right ln rn = .ok r) :
    r.pred.leftUsingIndices.length = ln.length ∧
    (∀ k ∈ r.pred.leftUsingIndices, k < left.sourceColumns.length) ∧
    (∀ k ∈ r.pred.rightUsingIndices, k < right.sourceColumns.length) ∧
    r.info.sourceColumns =
      r.pred.leftUsingIndices.map (fun k => left.sourceColumns.getD k default) ++
      r.pred.leftRestIndices.map (fun k => left.sourceColumns.getD k default) ++
      r.pred.rightRestIndices.map (fun k => right.sourceColumns.getD k default) ∧
    r.pred.leftRestIndices = (List.range left.sourceColumns.length).filter
      (fun t => decide (t ∉ r.pred.leftUsingIndices)) ∧
    r.pred.rightRestIndices = (List.range right.sourceColumns.length).filter
      (fun t => decide (t ∉ r.pred.rightUsingIndices)) ∧
    (∀ j, j < left.sourceColumns.length →
      ∃ m, r.usedLeftFinal.getD j invalidColIdx = some m ∧
        m < r.info.sourceColumns.length) ∧
    (∀ j, j < right.sourceColumns.length →
      ∃ m, r.usedRightFinal.getD j invalidColIdx = some m ∧
        m < r.info.sourceColumns.length) ∧
    r.info.sourceAliases =
      mergeAliases r.usedLeftFinal r.usedRightFinal left.sourceAliases right.sourceAliases := by
  simp only [makeEqualityPredicateFull] at h
  by_cases hne : ln.length ≠ rn.length
  · rw [if_pos hne] at h
    exact ConstrFull.noConfusion h
  · rw [if_neg hne] at h
    push_neg at hne
    rcases hbp : buildPairs findEq left.sourceColumns right.sourceColumns (ln.zip rn) 0
        { usedLeft := List.replicate left.sourceColumns.length invalidColIdx
          usedRight := List.replicate right.sourceColumns.length invalidColIdx
          columns := []
          cmpOps := []
          leftUsingIndices := []
          rightUsingIndices := [] } with e | st
    · rw [hbp] at h
      exact ConstrFull.noConfusion h
    · rw [hbp] at h
      dsimp only at h
      injection h with h'
      subst h'
      dsimp only
      obtain ⟨L, R, c1, c2, c3, c4, c5, c6, c7, c8, c9, c10, c11, c12, c13, c14⟩ :=
        buildPairs_ok_spec findEq left.sourceColumns right.sourceColumns (ln.zip rn) 0 _ st
          hbp (by simp) (by simp)
      dsimp only at c1 c2 c7 c9 c10 c11 c12
      simp only [List.nil_append] at c1 c2 c7
      simp only [List.length_replicate] at c9 c10
      simp only [getD_replicate_none] at c11 c12
      have hzlen : (ln.zip rn).length = ln.length := by
        simp [List.length_zip, hne]
      have hstL : ∀ j, st.usedLeft.getD j invalidColIdx = invalidColIdx ↔ j ∉ L := by
        intro j
        constructor
        · intro hnone hjL
          exact c13 j hjL hnone
        · intro hjnotL
          rcases c11 j with hpres | ⟨hjL, _⟩
          · exact hpres
          · exact absurd hjL hjnotL
      have hstR : ∀ j, st.usedRight.getD j invalidColIdx = invalidColIdx ↔ j ∉ R := by
        intro j
        constructor
        · intro hnone hjR
          exact c14 j hjR hnone
        · intro hjnotR
          rcases c12 j with hpres | ⟨hjR, _⟩
          · exact hpres
          · exact absurd hjR hjnotR
      obtain ⟨l1, l2, l3, l4, l5⟩ := restLoop_spec left.sourceColumns
        (List.range left.sourceColumns.length) st.usedLeft st.columns
        (List.nodup_range _) (by intro t ht; rw [c9]; simpa using ht)
      obtain ⟨r1, r2, r3, r4, r5⟩ := restLoop_spec right.sourceColumns
        (List.range right.sourceColumns.length) st.usedRight
        (restLoop left.sourceColumns (List.range left.sourceColumns.length)
          st.usedLeft st.columns).2.2
        (List.nodup_range _) (by intro t ht; rw [c10]; simpa using ht)
      have hcolL : st.columns.length = L.length := by
        rw [c7]
        simp
      have hLlen : L.length = ln.length := by
        rw [c3, hzlen]
      have hwid : (restLoop right.sourceColumns (List.range right.sourceColumns.length)
          st.usedRight
          (restLoop left.sourceColumns (List.range left.sourceColumns.length)
            st.usedLeft st.columns).2.2).2.2.length =
          st.columns.length +
            (restLoop left.sourceColumns (List.range left.sourceColumns.length)
              st.usedLeft st.columns).1.length +
            (restLoop right.sourceColumns (List.range right.sourceColumns.length)
              st.usedRight
              (restLoop left.sourceColumns (List.range left.sourceColumns.length)
                st.usedLeft st.columns).2.2).1.length := by
        rw [r2, l2]
        simp only [List.length_append, List.length_map]
      refine ⟨?_, ?_, ?_, ?_, ?_, ?_, ?_, ?_, rfl⟩
      · rw [c1, hLlen]
      · rw [c1]
        exact c5
      · rw [c2]
        exact c6
      · rw [r2, l2, c7, c1]
      · rw [l1]
        apply List.filter_congr
        intro t _
        rw [decide_eq_decide]
        rw [c1]
        exact hstL t
      · rw [r1]
        apply List.filter_congr
        intro t _
        rw [decide_eq_decide]
        rw [c2]
        exact hstR t
      · intro j hj
        have hne5 := l5 j (List.mem_range.mpr hj)
        rcases l4 j with hpres | ⟨m, hm, hm1, hm2⟩
        · rw [hpres] at hne5 ⊢
          rcases c11 j with hpres2 | ⟨_, m, hm, _, hm2⟩
          · exact absurd hpres2 hne5
          · refine ⟨m, hm, ?_⟩
            rw [hwid]
            rw [hzlen] at hm2
            omega
        · refine ⟨m, hm, ?_⟩
          rw [hwid]
          omega
      · intro j hj
        have hne5 := r5 j (List.mem_range.mpr hj)
        rcases r4 j with hpres | ⟨m, hm, hm1, hm2⟩
        · rw [hpres] at hne5 ⊢
          rcases c12 j with hpres2 | ⟨_, m, hm, _, hm2⟩
          · exact absurd hpres2 hne5
          · refine ⟨m, hm, ?_⟩
            rw [hwid]
            rw [hzlen] at hm2
            omega
        · have hm2' := hm2
          have hl22 : (restLoop left.sourceColumns (List.range left.sourceColumns.length)
              st.usedLeft st.columns).2.2.length =
              st.columns.length +
                (restLoop left.sourceColumns (List.range left.sourceColumns.length)
                  st.usedLeft st.columns).1.length := by
            rw [l2]
            simp
          refine ⟨m, hm, ?_⟩
          rw [hwid]
          rw [hl22] at hm2'
          omega

/-- C3: every successful Equality construction merges the schemas as: the
USING columns first, in pair order, each descriptor taken from the left side
at the pair's resolved position; then the left side's non-USING columns in
original order; then the right side's non-USING columns in original order —
so the width is #pairs + #left-non-USING + #right-non-USING. -/
theorem merged_schema_shape (findEq : Ty → Ty → Option CmpFn) (left right : DataSourceInfo)
    (ln rn : List String) (pred : EqualityPredicate) (info : DataSourceInfo)
    (h : makeEqualityPredicate findEq left right ln rn = .ok pred info) :
    pred.leftUsingIndices.length = ln.length ∧
    info.sourceColumns =
      pred.leftUsingIndices.map (fun k => left.sourceColumns.getD k default) ++
      pred.leftRestIndices.map (fun k => left.sourceColumns.getD k default) ++
      pred.rightRestIndices.map (fun k => right.sourceColumns.getD k default) ∧
    info.sourceColumns.length =
      ln.length + pred.leftRestIndices.length + pred.rightRestIndices.length ∧
    pred.leftRestIndices = (List.range left.sourceColumns.length).filter
      (fun t => decide (t ∉ pred.leftUsingIndices)) ∧
    pred.rightRestIndices = (List.range right.sourceColumns.length).filter
      (fun t => decide (t ∉ pred.rightUsingIndices)) := by
  simp only [makeEqualityPredicate] at h
  rcases hfull : makeEqualityPredicateFull findEq left right ln rn with r | e | m
  · rw [hfull] at h
    dsimp only at h
    injection h with h1 h2
    subst h1
    subst h2
    obtain ⟨f1, _, _, f4, f5, f6, _, _, _⟩ := constructionFacts findEq left right ln rn r hfull
    refine ⟨f1, f4, ?_, f5, f6⟩
    rw [f4]
    simp only [List.length_append, List.length_map, f1]
  · rw [hfull] at h
    exact ConstrResult.noConfusion h
  · rw [hfull] at h
    exact ConstrResult.noConfusion h

/-- Witness for C3: merging `(a, b)` with `(a, c)` on `USING(a)` gives the
schema `(a, b, c)` of width 3. -/
theorem merged_schema_shape_witness :
    sampleOkPred.leftUsingIndices.length = (["a"] : List String).length ∧
    sampleOkInfo.sourceColumns =
      sampleOkPred.leftUsingIndices.map
        (fun k => sampleLeftInfo.sourceColumns.getD k default) ++
      sampleOkPred.leftRestIndices.map
        (fun k => sampleLeftInfo.sourceColumns.getD k default) ++
      sampleOkPred.rightRestIndices.map
        (fun k => sampleRightInfo.sourceColumns.getD k default) ∧
    sampleOkInfo.sourceColumns.length =
      (["a"] : List String).length + sampleOkPred.leftRestIndices.length +
        sampleOkPred.rightRestIndices.length ∧
    sampleOkPred.leftRestIndices =
      (List.range sampleLeftInfo.sourceColumns.length).filter
        (fun t => decide (t ∉ sampleOkPred.leftUsingIndices)) ∧
    sampleOkPred.rightRestIndices =
      (List.range sampleRightInfo.sourceColumns.length).filter
        (fun t => decide (t ∉ sampleOkPred.rightUsingIndices)) :=
  merged_schema_shape sampleFindEq sampleLeftInfo sampleRightInfo ["a"] ["a"]
    sampleOkPred sampleOkInfo rfl

/-- C7: after every successful Equality construction, every original column
position on either side maps to exactly one merged-schema position (its entry
in the final used-map), every alias's remapped index list lies within the
merged schema's bounds, and an alias present on both sides reads the right
side's remapping in the merged alias map. -/
theorem alias_remap_consistent (findEq : Ty → Ty → Option CmpFn) (left right : DataSourceInfo)
    (ln rn : List String) (r : EqResult)
    (h : makeEqualityPredicateFull findEq left right ln rn = .ok r)
    (hwfL : aliasWF left.sourceColumns.length left.sourceAliases)
    (hwfR : aliasWF right.sourceColumns.length right.sourceAliases)
    (hnodupR : (right.sourceAliases.map Prod.fst).Nodup) :
    (∀ j, j < left.sourceColumns.length →
      ∃ m, r.usedLeftFinal.getD j invalidColIdx = some m ∧
        m < r.info.sourceColumns.length) ∧
    (∀ j, j < right.sourceColumns.length →
      ∃ m, r.usedRightFinal.getD j invalidColIdx = some m ∧
        m < r.info.sourceColumns.length) ∧
    (∀ a v, aliasLookup r.info.sourceAliases a = some v →
      ∀ c ∈ v, ∃ m, c = some m ∧ m < r.info.sourceColumns.length) ∧
    (∀ a rr, (a, rr) ∈ right.sourceAliases →
      aliasLookup r.info.sourceAliases a = some (remapRange r.usedRightFinal rr)) := by
  obtain ⟨_, _, _, _, _, _, f7, f8, f9⟩ := constructionFacts findEq left right ln rn r h
  have hremap : ∀ (u : List ColIdx) (side : DataSourceInfo),
      (∀ j, j < side.sourceColumns.length →
        ∃ m, u.getD j invalidColIdx = some m ∧ m < r.info.sourceColumns.length) →
      aliasWF side.sourceColumns.length side.sourceAliases →
      ∀ w, (∀ p ∈ side.sourceAliases, p.2 = w → True) → ∀ rr, (∃ a, (a, rr) ∈ side.sourceAliases) →
      ∀ c ∈ remapRange u rr, ∃ m, c = some m ∧ m < r.info.sourceColumns.length := by
    intro u side hu hwf w _ rr ⟨a, hmem⟩ c hc
    obtain ⟨cw, hcwmem, hcweq⟩ := List.mem_map.mp hc
    have hwfc := hwf (a, rr) hmem cw hcwmem
    obtain ⟨hlt, hne⟩ := hwfc
    cases cw with
    | none => exact absurd rfl hne
    | some j =>
      dsimp only at hcweq
      simp only [Option.getD_some] at hlt
      obtain ⟨m, hm, hmlt⟩ := hu j hlt
      rw [← hcweq, hm]
      exact ⟨m, rfl, hmlt⟩
  refine ⟨f7, f8, ?_, ?_⟩
  · intro a v hv
    rw [f9] at hv
    simp only [mergeAliases] at hv
    rw [aliasLookup_fold] at hv
    cases hra : lastVal right.sourceAliases a with
    | some w =>
      rw [hra] at hv
      simp only [Option.some.injEq] at hv
      subst hv
      exact hremap r.usedRightFinal right f8 hwfR w (fun _ _ _ => trivial) w
        ⟨a, lastVal_mem _ _ _ hra⟩
    | none =>
      rw [hra] at hv
      simp only at hv
      rw [aliasLookup_fold] at hv
      cases hla : lastVal left.sourceAliases a with
      | some w =>
        rw [hla] at hv
        simp only [Option.some.injEq] at hv
        subst hv
        exact hremap r.usedLeftFinal left f7 hwfL w (fun _ _ _ => trivial) w
          ⟨a, lastVal_mem _ _ _ hla⟩
      | none =>
        rw [hla] at hv
        simp only [aliasLookup, List.find?] at hv
        exact Option.noConfusion hv
  · intro a rr hmem
    rw [f9]
    simp only [mergeAliases]
    rw [aliasLookup_fold, lastVal_of_mem_nodup right.sourceAliases a rr hmem hnodupR]

/-- Witness for C7 at the sample construction: `t` exists on both sides, so
the merged map reads the right side's remapping. -/
theorem alias_remap_consistent_witness :
    (∀ j, j < sampleLeftInfo.sourceColumns.length →
      ∃ m, sampleEqResult.usedLeftFinal.getD j invalidColIdx = some m ∧
        m < sampleEqResult.info.sourceColumns.length) ∧
    (∀ j, j < sampleRightInfo.sourceColumns.length →
      ∃ m, sampleEqResult.usedRightFinal.getD j invalidColIdx = some m ∧
        m < sampleEqResult.info.sourceColumns.length) ∧
    (∀ a v, aliasLookup sampleEqResult.info.sourceAliases a = some v →
      ∀ c ∈ v, ∃ m, c = some m ∧ m < sampleEqResult.info.sourceColumns.length) ∧
    (∀ a rr, (a, rr) ∈ sampleRightInfo.sourceAliases →
      aliasLookup sampleEqResult.info.sourceAliases a =
        some (remapRange sampleEqResult.usedRightFinal rr)) :=
  alias_remap_consistent sampleFindEq sampleLeftInfo sampleRightInfo ["a"] ["a"]
    sampleEqResult rfl (by decide) (by decide) (by decide)

end JoinPred
